import Mathlib

/-!
Verification of the CSV-cleaning pipeline of `hyperclean-csv-haven`.

The TypeScript sources (`src/utils/csvProcessing.ts`, `src/utils/auth.ts`)
operate on loosely-typed tabular rows: each row is a string-keyed map of
string values.  We embed strings as `List Char` (`Str`) so that character
level operations (trimming, lower-casing, splitting, the quote-aware CSV
field scanner, and the regex-based normalizers) can be modelled and reasoned
about directly.  Rows are insertion-ordered association lists, mirroring
JavaScript object / `Map` semantics: assignment to an existing key replaces
the value in place, assignment to a fresh key appends at the end.
-/

/-- Strings of the embedded programs: JavaScript strings as lists of
characters. -/
abbrev Str := List Char

/-- Conversion from Lean string literals, used to write concrete inputs and
the string constants appearing in the source. -/
def strOf (s : String) : Str := s.data

/-- The whitespace class used by JavaScript `trim` / `\s` (restricted to the
ASCII whitespace characters, which are the only ones the pipeline's data
contains). -/
def isWsChar (c : Char) : Bool :=
  c = ' ' || c = '\t' || c = '\n' || c = '\r' || c = '\x0b' || c = '\x0c'

/-- `s.trim()`: drop whitespace from both ends. -/
def trimStr (s : Str) : Str :=
  ((s.dropWhile isWsChar).reverse.dropWhile isWsChar).reverse

/-- The 26 upper-to-lower ASCII letter pairs. -/
def lowerPairs : List (Char × Char) :=
  [('A', 'a'), ('B', 'b'), ('C', 'c'), ('D', 'd'), ('E', 'e'), ('F', 'f'),
   ('G', 'g'), ('H', 'h'), ('I', 'i'), ('J', 'j'), ('K', 'k'), ('L', 'l'),
   ('M', 'm'), ('N', 'n'), ('O', 'o'), ('P', 'p'), ('Q', 'q'), ('R', 'r'),
   ('S', 's'), ('T', 't'), ('U', 'u'), ('V', 'v'), ('W', 'w'), ('X', 'x'),
   ('Y', 'y'), ('Z', 'z')]

/-- ASCII lower-casing of one character, written as an explicit table
(the pipeline's data is ASCII, so this is `String.prototype.toLowerCase`
restricted to the characters that actually occur). -/
def charLower (c : Char) : Char :=
  match lowerPairs.find? (fun p => p.1 = c) with
  | some p => p.2
  | none => c

/-- ASCII upper-casing of one character (`String.prototype.toUpperCase` on
the ASCII data), used by the title-casing step of `cleanCompanyName`. -/
def charUpper (c : Char) : Char :=
  if c = 'a' then 'A' else if c = 'b' then 'B' else if c = 'c' then 'C'
  else if c = 'd' then 'D' else if c = 'e' then 'E' else if c = 'f' then 'F'
  else if c = 'g' then 'G' else if c = 'h' then 'H' else if c = 'i' then 'I'
  else if c = 'j' then 'J' else if c = 'k' then 'K' else if c = 'l' then 'L'
  else if c = 'm' then 'M' else if c = 'n' then 'N' else if c = 'o' then 'O'
  else if c = 'p' then 'P' else if c = 'q' then 'Q' else if c = 'r' then 'R'
  else if c = 's' then 'S' else if c = 't' then 'T' else if c = 'u' then 'U'
  else if c = 'v' then 'V' else if c = 'w' then 'W' else if c = 'x' then 'X'
  else if c = 'y' then 'Y' else if c = 'z' then 'Z' else c

/-- The character class `[a-z]` under the `/i` regex flag: an ASCII letter. -/
def isAsciiAlpha (c : Char) : Bool :=
  ('a' ≤ c && c ≤ 'z') || ('A' ≤ c && c ≤ 'Z')

/-- `s.toLowerCase()` (ASCII). -/
def lowerStr (s : Str) : Str := s.map charLower

/-- `s.split(sep)` for a single-character separator: auxiliary scanner with
an accumulator for the current field. -/
def splitOnCharAux (sep : Char) : List Char → Str → List Str
  | [], acc => [acc.reverse]
  | c :: cs, acc =>
    if c = sep then acc.reverse :: splitOnCharAux sep cs []
    else splitOnCharAux sep cs (c :: acc)

/-- `s.split(sep)` for a single-character separator. -/
def splitOnChar (sep : Char) (s : Str) : List Str := splitOnCharAux sep s []

/-- `s.startsWith(pre)`. -/
def startsWithStr (s pre : Str) : Bool :=
  match pre, s with
  | [], _ => true
  | _ :: _, [] => false
  | p :: ps, c :: cs => c = p && startsWithStr cs ps

/-- `s.endsWith(suf)`. -/
def endsWithStr (s suf : Str) : Bool := startsWithStr s.reverse suf.reverse

/-- `s.includes(sub)`: substring occurrence. -/
def containsSub (s sub : Str) : Bool :=
  startsWithStr s sub ||
    match s with
    | [] => false
    | _ :: cs => containsSub cs sub

/-- A row of the table: insertion-ordered association list from column name
to string value, embedding a JavaScript `Record<string, string>`. -/
abbrev Row := List (Str × Str)

/-- `row[key]`, with the absent key reading as the empty string (the code
only ever consumes absent fields through `|| ''`-style coercions or truthy
tests, for which `undefined` and `''` agree). -/
def rget (r : Row) (k : Str) : Str :=
  match r with
  | [] => []
  | p :: ps => if p.1 = k then p.2 else rget ps k

/-- `row[key] = v`: replace in place if the key exists, otherwise append —
JavaScript object assignment order semantics. -/
def rset (r : Row) (k : Str) (v : Str) : Row :=
  match r with
  | [] => [(k, v)]
  | p :: ps => if p.1 = k then (k, v) :: ps else p :: rset ps k v

theorem rget_rset_self (r : Row) (k v : Str) : rget (rset r k v) k = v := by
  induction r with
  | nil => simp [rset, rget]
  | cons p ps ih =>
    by_cases h : p.1 = k
    · simp [rset, rget, h]
    · simp [rset, rget, h, ih]

theorem rget_rset_ne (r : Row) (k k' v : Str) (h : k ≠ k') :
    rget (rset r k v) k' = rget r k' := by
  induction r with
  | nil => simp [rset, rget, h]
  | cons p ps ih =>
    by_cases hp : p.1 = k
    · simp [rset, rget, hp, h]
    · simp only [rset, hp, if_false, rget]
      by_cases hp' : p.1 = k'
      · simp [hp']
      · simp [hp', ih]

theorem rget_eq_nil_of_not_key (r : Row) (k : Str) (h : ∀ p ∈ r, p.1 ≠ k) :
    rget r k = [] := by
  induction r with
  | nil => rfl
  | cons p ps ih =>
    have hp := h p (by simp)
    simp only [rget, hp, if_false]
    exact ih fun q hq => h q (by simp [hq])

/-!
## Schema classifier (`inferCSVType`, csvProcessing.ts lines 148-166)
-/

/-- `h.match(/email_\d+$/i)`: the header ends (case-insensitively) with
`email_` followed by one or more digits. -/
def isEmailNumHeader (h : Str) : Bool :=
  let r := (lowerStr h).reverse
  let ds := r.takeWhile Char.isDigit
  decide (ds ≠ []) && startsWithStr (r.drop ds.length) (strOf "email_").reverse

/-- `headers.some(h => h.toLowerCase().includes('email'))`. -/
def hasEmailHeader (headers : List Str) : Bool :=
  headers.any (fun h => containsSub (lowerStr h) (strOf "email"))

/-- `headers.some(h => ['website','domain','url','site'].some(term =>
h.toLowerCase().includes(term)))`. -/
def hasWebsiteHeader (headers : List Str) : Bool :=
  headers.any (fun h =>
    [strOf "website", strOf "domain", strOf "url", strOf "site"].any
      (fun term => containsSub (lowerStr h) term))

/-- `inferCSVType` (csvProcessing.ts lines 148-166). -/
def inferCSVType (headers : List Str) : Str :=
  let emailColumns := headers.filter isEmailNumHeader
  if 2 ≤ emailColumns.length then strOf "multi-email"
  else if hasEmailHeader headers then strOf "single-email"
  else if hasWebsiteHeader headers then strOf "domain-only"
  else strOf "unknown"

/-!
## Mail-provider resolver (`getMXProvider` / `processMXBatch`,
csvProcessing.ts lines 239-343)
-/

def googleStr : Str := strOf "google"

def microsoftStr : Str := strOf "microsoft"

def otherStr : Str := strOf "other"

/-- `getMXProvider` (csvProcessing.ts lines 239-275), with the network
interaction abstracted into its input: `answer` is the list of MX record
strings of the DNS response (`data.Answer.map(r => r.data)`), and `none`
covers both a response without an `Answer` field and a failed lookup
(network error / malformed response) — the two code paths that return
`'other'`.  The `mxCache` memoization only avoids repeated lookups and does
not change the returned value. -/
def getMXProvider (answer : Option (List Str)) : Str :=
  match answer with
  | none => otherStr
  | some records =>
    let mxRecords := records.map lowerStr
    if mxRecords.any (fun record => containsSub record googleStr) then googleStr
    else if mxRecords.any (fun record =>
        containsSub record (strOf "outlook") || containsSub record microsoftStr) then
      microsoftStr
    else otherStr

/-- The unique-domain extraction at the top of `processMXBatch`
(lines 288-307): for each row whose mapped email field is truthy, take
`email.split('@')[1]` and add it to the `Set` when truthy.  A JavaScript
`Set` iterates in insertion order, so this is first-occurrence
deduplication. -/
def uniqueDomainsStep (emailField : Str) (acc : List Str) (row : Row) : List Str :=
  let email := rget row emailField
  if email ≠ [] then
    let domain := (splitOnChar '@' email).getD 1 []
    if domain ≠ [] ∧ domain ∉ acc then acc ++ [domain] else acc
  else acc

def uniqueDomains (data : List Row) (emailField : Str) : List Str :=
  data.foldl (uniqueDomainsStep emailField) []

/-- The `mxCache` contents after the batched lookups of `processMXBatch`
(lines 310-325): every unique domain is resolved through `getMXProvider`.
The partition into batches of 20 concurrent requests only schedules the
lookups; with a per-domain answer oracle the resulting cache is this
table. -/
def mxTable (lookup : Str → Option (List Str)) (data : List Row)
    (emailField : Str) : List (Str × Str) :=
  (uniqueDomains data emailField).map (fun d => (d, getMXProvider (lookup d)))

/-- First-match association lookup, embedding `cache[key]` (`none` when the
key is absent, i.e. JavaScript `undefined`). -/
def assocFind (t : List (Str × Str)) (k : Str) : Option Str :=
  match t with
  | [] => none
  | p :: ps => if p.1 = k then some p.2 else assocFind ps k

def mxProviderKey : Str := strOf "mx_provider"

/-- `cache[domain] || 'other'`: JavaScript falsy coalescing of the cache
read — an absent key (`undefined`) or an empty cached string falls back to
`'other'`. -/
def orOther (w : Option Str) : Str :=
  match w with
  | some w => if w = [] then otherStr else w
  | none => otherStr

/-- The per-row application step of `processMXBatch` (lines 328-340): a row
with a truthy email gets `row['mx_provider'] = mxCache[email.split('@')[1]]
|| 'other'`; a row with a falsy email gets `row['mx_provider'] = ''`.  The
`try/catch` around the split is dead in the model: `split` cannot fail. -/
def applyMXStep (cache : List (Str × Str)) (emailField : Str) (row : Row) : Row :=
  let email := rget row emailField
  if email ≠ [] then
    let domain := (splitOnChar '@' email).getD 1 []
    rset row mxProviderKey (orOther (assocFind cache domain))
  else rset row mxProviderKey []

/-- `processMXBatch` (csvProcessing.ts lines 281-343). -/
def processMXBatch (lookup : Str → Option (List Str)) (data : List Row)
    (emailField : Str) : List Row :=
  data.map (applyMXStep (mxTable lookup data emailField) emailField)

/-!
## Supporting lemmas for the classifier and resolver claims
-/

theorem splitOnCharAux_of_not_mem (sep : Char) (cs : List Char) (acc : Str)
    (h : sep ∉ cs) : splitOnCharAux sep cs acc = [acc.reverse ++ cs] := by
  induction cs generalizing acc with
  | nil => simp [splitOnCharAux]
  | cons c cs ih =>
    have hc : ¬ (c = sep) := by rintro rfl; exact h (by simp)
    have hmem : sep ∉ cs := fun hm => h (by simp [hm])
    simp [splitOnCharAux, hc, ih _ hmem]

theorem splitOnChar_of_not_mem (sep : Char) (s : Str) (h : sep ∉ s) :
    splitOnChar sep s = [s] := by
  simp [splitOnChar, splitOnCharAux_of_not_mem sep s [] h]

theorem mem_uniqueDomainsStep (emailField : Str) (acc : List Str) (row : Row)
    (x : Str) (hx : x ∈ uniqueDomainsStep emailField acc row) :
    x ∈ acc ∨ x ≠ [] := by
  simp only [uniqueDomainsStep] at hx
  split at hx
  · split at hx
    · rename_i hcond
      rcases List.mem_append.mp hx with h | h
      · exact Or.inl h
      · right; rw [List.mem_singleton] at h; subst h; exact hcond.1
    · exact Or.inl hx
  · exact Or.inl hx

theorem nil_not_mem_uniqueDomains (data : List Row) (emailField : Str) :
    [] ∉ uniqueDomains data emailField := by
  unfold uniqueDomains
  suffices h : ∀ acc : List Str, [] ∉ acc →
      [] ∉ data.foldl (uniqueDomainsStep emailField) acc by
    exact h [] (by simp)
  induction data with
  | nil => intro acc hacc; exact hacc
  | cons row rows ih =>
    intro acc hacc
    simp only [List.foldl_cons]
    apply ih
    intro hmem
    rcases mem_uniqueDomainsStep emailField acc row [] hmem with h | h
    · exact hacc h
    · exact h rfl

theorem assocFind_map_self (l : List Str) (f : Str → Str) (k : Str) :
    assocFind (l.map (fun d => (d, f d))) k =
      if k ∈ l then some (f k) else none := by
  induction l with
  | nil => simp [assocFind]
  | cons d l ih =>
    by_cases hd : d = k
    · subst hd; simp [assocFind]
    · simp [assocFind, hd, ih, Ne.symm hd]

theorem getMXProvider_cases (answer : Option (List Str)) :
    getMXProvider answer = googleStr ∨ getMXProvider answer = microsoftStr ∨
      getMXProvider answer = otherStr := by
  match answer with
  | none => simp [getMXProvider]
  | some records =>
    simp only [getMXProvider]
    by_cases h1 : (records.map lowerStr).any (fun record => containsSub record googleStr)
    · simp [h1]
    · by_cases h2 : (records.map lowerStr).any fun record =>
          containsSub record (strOf "outlook") || containsSub record microsoftStr
      · simp [h1, h2]
      · simp [h1, h2]

theorem getD_map_of_lt {α β : Type} (f : α → β) (l : List α) (i : Nat)
    (d : β) (d' : α) (h : i < l.length) :
    (l.map f).getD i d = f (l.getD i d') := by
  rw [List.getD_eq_getElem?_getD, List.getD_eq_getElem?_getD, List.getElem?_map,
    List.getElem?_eq_getElem h]
  simp

theorem assocFind_mxTable (lookup : Str → Option (List Str)) (data : List Row)
    (emailField : Str) (d : Str) :
    assocFind (mxTable lookup data emailField) d =
      if d ∈ uniqueDomains data emailField then some (getMXProvider (lookup d))
      else none := by
  unfold mxTable
  exact assocFind_map_self _ _ _

/-- The `mx_provider` value written by `applyMXStep` for a row with a truthy
email is always one of the three provider categories. -/
theorem applyMXStep_provider_mem (cache : List (Str × Str)) (emailField : Str)
    (row : Row) (lookup : Str → Option (List Str)) (data : List Row)
    (hc : cache = mxTable lookup data emailField)
    (he : rget row emailField ≠ []) :
    rget (applyMXStep cache emailField row) mxProviderKey = googleStr ∨
    rget (applyMXStep cache emailField row) mxProviderKey = microsoftStr ∨
    rget (applyMXStep cache emailField row) mxProviderKey = otherStr := by
  simp only [applyMXStep, he, ne_eq, not_false_iff, if_true, rget_rset_self]
  subst hc
  rw [assocFind_mxTable]
  by_cases hmem :
      (splitOnChar '@' (rget row emailField)).getD 1 [] ∈ uniqueDomains data emailField
  · rw [if_pos hmem]
    simp only [orOther]
    split
    · right; right; rfl
    · exact getMXProvider_cases _
  · rw [if_neg hmem]
    right; right; rfl

/-!
## Claim C9: `inferCSVType` precedence
-/

/-- C9: `inferCSVType` returns `'multi-email'` when at least two headers
match the `email_<digits>` suffix pattern (case-insensitive); otherwise
`'single-email'` when some header contains `'email'`; otherwise
`'domain-only'` when some header contains `'website'`, `'domain'`, `'url'`
or `'site'`; otherwise `'unknown'` — in exactly this precedence order. -/
theorem inferCSVType_precedence (headers : List Str) :
    (2 ≤ (headers.filter isEmailNumHeader).length →
      inferCSVType headers = strOf "multi-email") ∧
    ((headers.filter isEmailNumHeader).length < 2 → hasEmailHeader headers = true →
      inferCSVType headers = strOf "single-email") ∧
    ((headers.filter isEmailNumHeader).length < 2 → hasEmailHeader headers = false →
      hasWebsiteHeader headers = true →
      inferCSVType headers = strOf "domain-only") ∧
    ((headers.filter isEmailNumHeader).length < 2 → hasEmailHeader headers = false →
      hasWebsiteHeader headers = false →
      inferCSVType headers = strOf "unknown") := by
  refine ⟨fun h1 => ?_, fun h1 h2 => ?_, fun h1 h2 h3 => ?_, fun h1 h2 h3 => ?_⟩
  · simp [inferCSVType, h1]
  · have h1' : ¬ 2 ≤ (headers.filter isEmailNumHeader).length := by omega
    simp [inferCSVType, h1', h2]
  · have h1' : ¬ 2 ≤ (headers.filter isEmailNumHeader).length := by omega
    simp [inferCSVType, h1', h2, h3]
  · have h1' : ¬ 2 ≤ (headers.filter isEmailNumHeader).length := by omega
    simp [inferCSVType, h1', h2, h3]

/-- C9 witness: a concrete header list with two `email_<digits>` headers
(one of them upper-case, one with a digit suffix on a longer name) is
classified `'multi-email'` even though the headers also contain the plain
substring `'email'`. -/
theorem inferCSVType_precedence_witness :
    2 ≤ ([strOf "Email_1", strOf "work EMAIL_23"].filter isEmailNumHeader).length ∧
    inferCSVType [strOf "Email_1", strOf "work EMAIL_23"] = strOf "multi-email" :=
  ⟨by decide, (inferCSVType_precedence [strOf "Email_1", strOf "work EMAIL_23"]).1 (by decide)⟩

/-!
## Claim C10: `processMXBatch` totality and the `mx_provider` field
-/

/-- C10: `processMXBatch` is total per row: the output has one row per input
row, and row `i` carries `mx_provider` equal to the empty string exactly
when its mapped email field is empty/missing, and otherwise one of
`'google'`, `'microsoft'`, `'other'`; an email without `'@'` gets
`'other'` (the undefined domain lookup falls back to `'other'`). -/
theorem processMXBatch_total (lookup : Str → Option (List Str)) (data : List Row)
    (emailField : Str) (i : Nat) (hi : i < data.length) :
    (processMXBatch lookup data emailField).length = data.length ∧
    (rget (data.getD i []) emailField = [] →
      rget ((processMXBatch lookup data emailField).getD i []) mxProviderKey = []) ∧
    (rget (data.getD i []) emailField ≠ [] →
      rget ((processMXBatch lookup data emailField).getD i []) mxProviderKey = googleStr ∨
      rget ((processMXBatch lookup data emailField).getD i []) mxProviderKey = microsoftStr ∨
      rget ((processMXBatch lookup data emailField).getD i []) mxProviderKey = otherStr) ∧
    (rget (data.getD i []) emailField ≠ [] → '@' ∉ rget (data.getD i []) emailField →
      rget ((processMXBatch lookup data emailField).getD i []) mxProviderKey = otherStr) := by
  refine ⟨by simp [processMXBatch], ?_, ?_, ?_⟩
  · intro he
    rw [processMXBatch, getD_map_of_lt _ _ i [] [] hi]
    simp only [applyMXStep]
    rw [if_neg (not_not_intro he), rget_rset_self]
  · intro he
    rw [processMXBatch, getD_map_of_lt _ _ i [] [] hi]
    exact applyMXStep_provider_mem _ emailField _ lookup data rfl he
  · intro he hat
    rw [processMXBatch, getD_map_of_lt _ _ i [] [] hi]
    simp only [applyMXStep]
    rw [if_pos he, rget_rset_self]
    rw [splitOnChar_of_not_mem '@' _ hat]
    have hdom : ([rget (data.getD i []) emailField].getD 1 []) = ([] : Str) := by rfl
    rw [hdom, assocFind_mxTable,
      if_neg (nil_not_mem_uniqueDomains data emailField)]
    rfl

/-- C10 witness: on a one-row batch whose email lacks `'@'`, the output row
gets `mx_provider = 'other'`. -/
theorem processMXBatch_total_witness :
    (0 : Nat) < 1 ∧
    rget ((processMXBatch (fun _ => none) [[(strOf "email", strOf "bademail")]]
      (strOf "email")).getD 0 []) mxProviderKey = otherStr :=
  ⟨by decide,
    (processMXBatch_total (fun _ => none) [[(strOf "email", strOf "bademail")]]
      (strOf "email") 0 (by decide)).2.2.2 (by decide) (by decide)⟩

/-!
## Claim C8: `getMXProvider` classification and batch isolation
-/

/-- C8 counterexample: a domain whose only MX record contains `'gmail'` (but
not `'google'`) is classified `'other'`, not `'google'` as the claim
states — `getMXProvider` only tests the substrings `'google'`, `'outlook'`
and `'microsoft'`. -/
theorem getMXProvider_gmail_counterexample :
    getMXProvider (some [strOf "mx.gmail.com"]) = otherStr ∧
    otherStr ≠ googleStr := by
  constructor
  · decide
  · decide

/-- C8 (amended): `getMXProvider` classifies by substring match over the
lower-cased MX record strings: some record containing `'google'` yields
`'google'`; otherwise some record containing `'outlook'` or `'microsoft'`
yields `'microsoft'` (`'gmail'` and `'hotmail'` are not consulted); every
other outcome, including a lookup failure or a response without an answer,
yields `'other'`; and in `processMXBatch` the provider written to a row
depends only on the answer for that row's own email domain, so a failed
lookup for one domain never disturbs the remaining rows. -/
theorem getMXProvider_classification :
    (∀ records : List Str,
      (records.map lowerStr).any (fun r => containsSub r googleStr) = true →
      getMXProvider (some records) = googleStr) ∧
    (∀ records : List Str,
      (records.map lowerStr).any (fun r => containsSub r googleStr) = false →
      (records.map lowerStr).any (fun r =>
        containsSub r (strOf "outlook") || containsSub r microsoftStr) = true →
      getMXProvider (some records) = microsoftStr) ∧
    (∀ records : List Str,
      (records.map lowerStr).any (fun r => containsSub r googleStr) = false →
      (records.map lowerStr).any (fun r =>
        containsSub r (strOf "outlook") || containsSub r microsoftStr) = false →
      getMXProvider (some records) = otherStr) ∧
    (getMXProvider none = otherStr) ∧
    (∀ lookup1 lookup2 : Str → Option (List Str), ∀ data : List Row,
      ∀ emailField : Str, ∀ i : Nat, i < data.length →
      lookup1 ((splitOnChar '@' (rget (data.getD i []) emailField)).getD 1 []) =
        lookup2 ((splitOnChar '@' (rget (data.getD i []) emailField)).getD 1 []) →
      rget ((processMXBatch lookup1 data emailField).getD i []) mxProviderKey =
        rget ((processMXBatch lookup2 data emailField).getD i []) mxProviderKey) := by
  refine ⟨?_, ?_, ?_, rfl, ?_⟩
  · intro records h1
    simp [getMXProvider, h1]
  · intro records h1 h2
    simp [getMXProvider, h1, h2]
  · intro records h1 h2
    simp [getMXProvider, h1, h2]
  · intro lookup1 lookup2 data emailField i hi heq
    rw [processMXBatch, processMXBatch, getD_map_of_lt _ _ i [] [] hi,
      getD_map_of_lt _ _ i [] [] hi]
    simp only [applyMXStep]
    by_cases he : rget (data.getD i []) emailField ≠ []
    · rw [if_pos he, if_pos he, rget_rset_self, rget_rset_self,
        assocFind_mxTable, assocFind_mxTable, heq]
    · rw [if_neg he, if_neg he]

/-- C8 witness: a microsoft-classified concrete record list through the
second clause of the classification theorem. -/
theorem getMXProvider_classification_witness :
    ([strOf "mail.protection.OUTLOOK.com"].map lowerStr).any
      (fun r => containsSub r googleStr) = false ∧
    getMXProvider (some [strOf "mail.protection.OUTLOOK.com"]) = microsoftStr :=
  ⟨by decide,
    getMXProvider_classification.2.1 [strOf "mail.protection.OUTLOOK.com"]
      (by decide) (by decide)⟩

/-!
## Claim C2: domain-frequency suppression
(`processSingleEmailCSV` lines 540-591 and the identical block of
`processMultiEmailCSV` lines 873-922)
-/

def cleanedWebsiteKey : Str := strOf "cleaned_website"

/-- The canonical domain of a row: `row['cleaned_website']`. -/
def domainOf (r : Row) : Str := rget r cleanedWebsiteKey

/-- `domainCounts[d]` after the counting pass (lines 542-550): the number of
rows whose truthy `cleaned_website` equals `d` (only truthy domains are
counted, and the count is only consulted for a truthy domain). -/
def countDomain (rows : List Row) (d : Str) : Nat :=
  (rows.filter (fun r => decide (domainOf r = d))).length

/-- The keep-condition of the suppression filter (lines 570-574): keep rows
with an empty or blank domain, or whose domain count does not exceed the
threshold of 6. -/
def keepByDomainFrequency (rows : List Row) (r : Row) : Bool :=
  decide (domainOf r = []) || decide (trimStr (domainOf r) = []) ||
    decide (countDomain rows (domainOf r) ≤ 6)

/-- The suppression stage shared by `processSingleEmailCSV` (lines 540-574)
and `processMultiEmailCSV` (lines 873-906): filter against the pre-filter
domain counts. -/
def filterByDomainFrequency (rows : List Row) : List Row :=
  rows.filter (keepByDomainFrequency rows)

theorem countDomain_filter_le (rows : List Row) (p : Row → Bool) (d : Str) :
    countDomain (rows.filter p) d ≤ countDomain rows d := by
  unfold countDomain
  exact List.Sublist.length_le (List.Sublist.filter _ (List.filter_sublist _))

/-- C2: after the domain-frequency suppression stage, every surviving row
either has a blank `cleaned_website` domain, or at most 6 surviving rows
share its canonical domain; and a row with an empty or blank domain is
never removed by the stage.  The same block appears verbatim in
`processSingleEmailCSV` and `processMultiEmailCSV`. -/
theorem domainFrequency_suppression (rows : List Row) :
    (∀ r ∈ filterByDomainFrequency rows,
      trimStr (domainOf r) = [] ∨
      countDomain (filterByDomainFrequency rows) (domainOf r) ≤ 6) ∧
    (∀ r ∈ rows, trimStr (domainOf r) = [] →
      r ∈ filterByDomainFrequency rows) := by
  constructor
  · intro r hr
    have hk := (List.mem_filter.mp hr).2
    unfold keepByDomainFrequency at hk
    simp only [Bool.or_eq_true, decide_eq_true_eq] at hk
    rcases hk with (h1 | h2) | h3
    · left; rw [h1]; rfl
    · left; exact h2
    · right
      exact le_trans (countDomain_filter_le rows _ _) h3
  · intro r hr htrim
    apply List.mem_filter.mpr
    refine ⟨hr, ?_⟩
    unfold keepByDomainFrequency
    simp [htrim]

/-- C2 witness: a two-row table (one real domain, one blank) passes the
stage untouched and the surviving real-domain row satisfies the count
bound. -/
theorem domainFrequency_suppression_witness :
    [(cleanedWebsiteKey, strOf "a.com")] ∈
      filterByDomainFrequency
        [[(cleanedWebsiteKey, strOf "a.com")], [(cleanedWebsiteKey, [])]] ∧
    (trimStr (domainOf [(cleanedWebsiteKey, strOf "a.com")]) = [] ∨
      countDomain
        (filterByDomainFrequency
          [[(cleanedWebsiteKey, strOf "a.com")], [(cleanedWebsiteKey, [])]])
        (domainOf [(cleanedWebsiteKey, strOf "a.com")]) ≤ 6) :=
  ⟨by decide,
    (domainFrequency_suppression
      [[(cleanedWebsiteKey, strOf "a.com")], [(cleanedWebsiteKey, [])]]).1
      [(cleanedWebsiteKey, strOf "a.com")] (by decide)⟩

/-!
## Claim C1: filter and deduplicate stages of `processSingleEmailCSV`
(csvProcessing.ts lines 452-494)
-/

/-- Stage 1 filter (lines 452-455): keep rows whose
`(row[emailField] || '').trim()` is non-empty and contains `'@'`. -/
def filterValidEmails (emailField : Str) (rows : List Row) : List Row :=
  rows.filter (fun r =>
    decide (trimStr (rget r emailField) ≠ []) &&
      containsSub (trimStr (rget r emailField)) (strOf "@"))

/-- The deduplication key (line 467): `row[emailField].toLowerCase().trim()`. -/
def dedupKey (emailField : Str) (r : Row) : Str :=
  trimStr (lowerStr (rget r emailField))

/-- `Object.values(row).filter(v => v && v.trim() !== '').length` (lines
478-479): the number of non-empty field values of a row. -/
def countNonEmpty (r : Row) : Nat :=
  ((r.map Prod.snd).filter (fun v =>
    decide (v ≠ []) && decide (trimStr v ≠ []))).length

/-- First-match association lookup in the `uniqueEmails` map state. -/
def assocFindRow (st : List (Str × Row)) (k : Str) : Option Row :=
  match st with
  | [] => none
  | p :: ps => if p.1 = k then some p.2 else assocFindRow ps k

/-- `Map.set` on an existing key: replace the value in place (JavaScript
`Map` keeps the key's original insertion position). -/
def assocReplace (st : List (Str × Row)) (k : Str) (v : Row) : List (Str × Row) :=
  match st with
  | [] => []
  | p :: ps => if p.1 = k then (k, v) :: ps else p :: assocReplace ps k v

/-- One iteration of the dedup loop (lines 466-486): insert an unseen key at
the end; on collision replace the stored row exactly when the new row has
strictly more non-empty field values. -/
def dedupStep (emailField : Str) (st : List (Str × Row)) (row : Row) :
    List (Str × Row) :=
  let e := dedupKey emailField row
  match assocFindRow st e with
  | none => st ++ [(e, row)]
  | some old =>
    if countNonEmpty row > countNonEmpty old then assocReplace st e row else st

/-- The `uniqueEmails` map after the dedup loop. -/
def dedupState (emailField : Str) (rows : List Row) : List (Str × Row) :=
  rows.foldl (dedupStep emailField) []

/-- `Array.from(uniqueEmails.values())` (line 491). -/
def dedupEmails (emailField : Str) (rows : List Row) : List Row :=
  (dedupState emailField rows).map Prod.snd

/-- The composition of the filter and deduplicate stages of
`processSingleEmailCSV` (lines 452-494). -/
def filterAndDedup (emailField : Str) (rows : List Row) : List Row :=
  dedupEmails emailField (filterValidEmails emailField rows)

/-- The rows of the filtered input sharing one deduplication key (a
specification-side grouping used to state the dedup invariant). -/
def emailGroup (emailField : Str) (rows : List Row) (e : Str) : List Row :=
  rows.filter (fun r => decide (dedupKey emailField r = e))

/-- The collision resolution, as a binary choice: the later row wins exactly
when it has strictly more non-empty values. -/
def pickRicher (a b : Row) : Row :=
  if countNonEmpty b > countNonEmpty a then b else a

/-- The row the dedup loop retains for one key class: the earliest row
attaining the running maximum of non-empty-value counts. -/
def firstMaxRow : List Row → Row
  | [] => []
  | r :: rs => rs.foldl pickRicher r

theorem assocFindRow_eq_none_iff (st : List (Str × Row)) (e : Str) :
    assocFindRow st e = none ↔ e ∉ st.map Prod.fst := by
  induction st with
  | nil => simp [assocFindRow]
  | cons p ps ih =>
    by_cases h : p.1 = e
    · simp [assocFindRow, h]
    · simp [assocFindRow, h, ih, Ne.symm h]

theorem assocFindRow_append (st st' : List (Str × Row)) (e : Str) :
    assocFindRow (st ++ st') e =
      match assocFindRow st e with
      | some v => some v
      | none => assocFindRow st' e := by
  induction st with
  | nil => simp [assocFindRow]
  | cons p ps ih =>
    by_cases h : p.1 = e
    · simp [assocFindRow, h]
    · simp [assocFindRow, h, ih]

theorem mem_assocReplace (st : List (Str × Row)) (k : Str) (v : Row)
    (p : Str × Row) (hp : p ∈ assocReplace st k v) : p ∈ st ∨ p = (k, v) := by
  induction st with
  | nil => simp [assocReplace] at hp
  | cons q qs ih =>
    by_cases h : q.1 = k
    · simp only [assocReplace, h, if_true] at hp
      rcases List.mem_cons.mp hp with h1 | h1
      · right; exact h1
      · left; exact List.mem_cons_of_mem _ h1
    · simp only [assocReplace, h, if_false] at hp
      rcases List.mem_cons.mp hp with h1 | h1
      · left; simp [h1]
      · rcases ih h1 with h2 | h2
        · left; exact List.mem_cons_of_mem _ h2
        · right; exact h2

theorem map_fst_assocReplace (st : List (Str × Row)) (k : Str) (v : Row)
    (hk : assocFindRow st k ≠ none) :
    (assocReplace st k v).map Prod.fst = st.map Prod.fst := by
  induction st with
  | nil => simp [assocReplace]
  | cons q qs ih =>
    by_cases h : q.1 = k
    · simp [assocReplace, h]
    · simp only [assocFindRow, h, if_false] at hk
      simp [assocReplace, h, ih hk]

theorem assocFindRow_assocReplace_ne (st : List (Str × Row)) (k e : Str)
    (v : Row) (h : e ≠ k) :
    assocFindRow (assocReplace st k v) e = assocFindRow st e := by
  induction st with
  | nil => simp [assocReplace]
  | cons q qs ih =>
    by_cases hq : q.1 = k
    · have hne : ¬ (k = e) := fun hh => h hh.symm
      have hq' : ¬ (q.1 = e) := by rw [hq]; exact hne
      simp only [assocReplace, if_pos hq, assocFindRow, if_neg hne, if_neg hq']
    · by_cases hq' : q.1 = e
      · simp only [assocReplace, if_neg hq, assocFindRow, if_pos hq']
      · simp only [assocReplace, if_neg hq, assocFindRow, if_neg hq']
        exact ih

theorem assocFindRow_assocReplace_self (st : List (Str × Row)) (k : Str)
    (v : Row) (hk : assocFindRow st k ≠ none) :
    assocFindRow (assocReplace st k v) k = some v := by
  induction st with
  | nil => simp [assocFindRow] at hk
  | cons q qs ih =>
    by_cases h : q.1 = k
    · simp [assocReplace, assocFindRow, h]
    · simp only [assocFindRow, h, if_false] at hk
      simp [assocReplace, assocFindRow, h, ih hk]

theorem firstMaxRow_append_single (g : List Row) (r : Row) (hg : g ≠ []) :
    firstMaxRow (g ++ [r]) = pickRicher (firstMaxRow g) r := by
  match g with
  | [] => exact absurd rfl hg
  | x :: xs => simp [firstMaxRow, List.foldl_append]

theorem foldl_pickRicher_mem (a : Row) (l : List Row) :
    l.foldl pickRicher a ∈ a :: l := by
  induction l generalizing a with
  | nil => simp
  | cons b l ih =>
    rcases List.mem_cons.mp (ih (pickRicher a b)) with h | h
    · rw [List.foldl_cons, h]
      unfold pickRicher
      split
      · simp
      · simp
    · rw [List.foldl_cons]
      simp [h]

theorem foldl_pickRicher_max (a : Row) (l : List Row) :
    ∀ r ∈ a :: l, countNonEmpty r ≤ countNonEmpty (l.foldl pickRicher a) := by
  induction l generalizing a with
  | nil => intro r hr; simp at hr; subst hr; simp
  | cons b l ih =>
    intro r hr
    rw [List.foldl_cons]
    rcases List.mem_cons.mp hr with h | h
    · subst h
      calc countNonEmpty r ≤ countNonEmpty (pickRicher r b) := by
            unfold pickRicher; split <;> omega
        _ ≤ countNonEmpty (l.foldl pickRicher (pickRicher r b)) :=
            ih (pickRicher r b) _ (List.mem_cons_self _ _)
    · rcases List.mem_cons.mp h with h' | h'
      · subst h'
        calc countNonEmpty r ≤ countNonEmpty (pickRicher a r) := by
              unfold pickRicher; split <;> omega
          _ ≤ countNonEmpty (l.foldl pickRicher (pickRicher a r)) :=
              ih (pickRicher a r) _ (List.mem_cons_self _ _)
      · exact ih (pickRicher a b) r (List.mem_cons_of_mem _ h')

theorem foldl_pickRicher_earliest (a : Row) (l : List Row) :
    ∃ l1 l2, a :: l = l1 ++ (l.foldl pickRicher a) :: l2 ∧
      ∀ r ∈ l1, countNonEmpty r < countNonEmpty (l.foldl pickRicher a) := by
  induction l generalizing a with
  | nil => exact ⟨[], [], by simp, by simp⟩
  | cons b l ih =>
    rw [List.foldl_cons]
    by_cases hb : countNonEmpty b > countNonEmpty a
    · have hpick : pickRicher a b = b := by unfold pickRicher; simp [hb]
      rw [hpick]
      obtain ⟨l1, l2, hdec, hlt⟩ := ih b
      refine ⟨a :: l1, l2, by simp [hdec], ?_⟩
      intro r hr
      rcases List.mem_cons.mp hr with h | h
      · subst h
        have hble : countNonEmpty b ≤ countNonEmpty (l.foldl pickRicher b) :=
          foldl_pickRicher_max b l b (List.mem_cons_self _ _)
        omega
      · exact hlt r h
    · have hpick : pickRicher a b = a := by unfold pickRicher; simp [hb]
      rw [hpick]
      obtain ⟨l1, l2, hdec, hlt⟩ := ih a
      match l1, hdec, hlt with
      | [], hdec, hlt =>
        rw [List.nil_append] at hdec
        injection hdec with ha hl
        refine ⟨[], b :: l, ?_, by simp⟩
        rw [List.nil_append, ← ha]
      | x :: t, hdec, hlt =>
        rw [List.cons_append] at hdec
        injection hdec with hx htail
        refine ⟨a :: b :: t, l2, ?_, ?_⟩
        · rw [List.cons_append, List.cons_append, ← htail]
        · intro r hr
          have hxlt : countNonEmpty a < countNonEmpty (l.foldl pickRicher a) := by
            have hmem := hlt x (List.mem_cons_self _ _)
            rw [← hx] at hmem
            exact hmem
          rcases List.mem_cons.mp hr with h | h
          · subst h; exact hxlt
          · rcases List.mem_cons.mp h with h' | h'
            · subst h'; omega
            · exact hlt r (List.mem_cons_of_mem _ h')

theorem assocFindRow_append_single_ne (st : List (Str × Row)) (k e : Str)
    (r : Row) (h : k ≠ e) :
    assocFindRow (st ++ [(k, r)]) e = assocFindRow st e := by
  rw [assocFindRow_append]
  cases assocFindRow st e <;> simp [assocFindRow, h]

theorem assocFindRow_append_single_self (st : List (Str × Row)) (k : Str)
    (r : Row) (h : assocFindRow st k = none) :
    assocFindRow (st ++ [(k, r)]) k = some r := by
  rw [assocFindRow_append, h]
  simp [assocFindRow]

theorem dedupStep_eq_insert (ef : Str) (st : List (Str × Row)) (row : Row)
    (h : assocFindRow st (dedupKey ef row) = none) :
    dedupStep ef st row = st ++ [(dedupKey ef row, row)] := by
  simp only [dedupStep, h]

theorem dedupStep_eq_replace (ef : Str) (st : List (Str × Row)) (row old : Row)
    (h : assocFindRow st (dedupKey ef row) = some old)
    (hlt : countNonEmpty row > countNonEmpty old) :
    dedupStep ef st row = assocReplace st (dedupKey ef row) row := by
  simp only [dedupStep, h]
  rw [if_pos hlt]

theorem dedupStep_eq_keep (ef : Str) (st : List (Str × Row)) (row old : Row)
    (h : assocFindRow st (dedupKey ef row) = some old)
    (hnlt : ¬ countNonEmpty row > countNonEmpty old) :
    dedupStep ef st row = st := by
  simp only [dedupStep, h]
  rw [if_neg hnlt]

/-- Invariant of the `uniqueEmails` map state: entries are keyed by their
row's dedup key, keys are distinct, and the entry stored for a key is the
earliest row of its key class attaining the maximal non-empty-value
count. -/
theorem dedupState_spec (ef : Str) (rows : List Row) :
    (∀ p ∈ dedupState ef rows, dedupKey ef p.2 = p.1) ∧
    ((dedupState ef rows).map Prod.fst).Nodup ∧
    ∀ e, assocFindRow (dedupState ef rows) e =
      if emailGroup ef rows e = [] then none
      else some (firstMaxRow (emailGroup ef rows e)) := by
  induction rows using List.reverseRecOn with
  | nil =>
    refine ⟨by simp [dedupState], by simp [dedupState], fun e => ?_⟩
    simp [dedupState, emailGroup, assocFindRow]
  | append_singleton l r ih =>
    obtain ⟨ihkey, ihnodup, ihfind⟩ := ih
    have hstate : dedupState ef (l ++ [r]) = dedupStep ef (dedupState ef l) r := by
      simp [dedupState, List.foldl_append]
    have hgroup : ∀ e, emailGroup ef (l ++ [r]) e =
        emailGroup ef l e ++ (if dedupKey ef r = e then [r] else []) := by
      intro e
      simp only [emailGroup, List.filter_append]
      congr 1
      by_cases hc : dedupKey ef r = e
      · simp [hc]
      · simp [hc]
    cases hfind : assocFindRow (dedupState ef l) (dedupKey ef r) with
    | none =>
      have hins := dedupStep_eq_insert ef (dedupState ef l) r hfind
      have hempty : emailGroup ef l (dedupKey ef r) = [] := by
        have hh := ihfind (dedupKey ef r)
        rw [hfind] at hh
        by_cases hg : emailGroup ef l (dedupKey ef r) = []
        · exact hg
        · rw [if_neg hg] at hh; exact absurd hh (by simp)
      have hnotmem : dedupKey ef r ∉ (dedupState ef l).map Prod.fst :=
        (assocFindRow_eq_none_iff _ _).mp hfind
      refine ⟨?_, ?_, ?_⟩
      · intro p hp
        rw [hstate, hins] at hp
        rcases List.mem_append.mp hp with h | h
        · exact ihkey p h
        · rw [List.mem_singleton] at h
          subst h
          rfl
      · rw [hstate, hins, List.map_append, List.nodup_append]
        refine ⟨ihnodup, List.nodup_singleton _, ?_⟩
        intro a ha hb
        rw [List.map_singleton, List.mem_singleton] at hb
        subst hb
        exact hnotmem ha
      · intro e
        rw [hstate, hins, hgroup e]
        by_cases he : dedupKey ef r = e
        · subst he
          rw [assocFindRow_append_single_self _ _ _ hfind, hempty]
          simp [firstMaxRow]
        · rw [assocFindRow_append_single_ne _ _ _ _ he, if_neg he]
          simp only [List.append_nil]
          exact ihfind e
    | some old =>
      have hh := ihfind (dedupKey ef r)
      rw [hfind] at hh
      have hgne : emailGroup ef l (dedupKey ef r) ≠ [] := by
        intro hg
        rw [if_pos hg] at hh
        exact Option.noConfusion hh
      have hold : old = firstMaxRow (emailGroup ef l (dedupKey ef r)) := by
        rw [if_neg hgne] at hh
        exact Option.some.inj hh
      have hfound : assocFindRow (dedupState ef l) (dedupKey ef r) ≠ none := by
        rw [hfind]; simp
      by_cases hlt : countNonEmpty r > countNonEmpty old
      · have hstep := dedupStep_eq_replace ef (dedupState ef l) r old hfind hlt
        refine ⟨?_, ?_, ?_⟩
        · intro p hp
          rw [hstate, hstep] at hp
          rcases mem_assocReplace _ _ _ p hp with h | h
          · exact ihkey p h
          · subst h; rfl
        · rw [hstate, hstep, map_fst_assocReplace _ _ _ hfound]
          exact ihnodup
        · intro e
          rw [hstate, hstep, hgroup e]
          by_cases he : dedupKey ef r = e
          · subst he
            rw [assocFindRow_assocReplace_self _ _ _ hfound, if_pos rfl]
            have hne2 : emailGroup ef l (dedupKey ef r) ++ [r] ≠ [] := by simp
            rw [if_neg hne2]
            congr 1
            rw [firstMaxRow_append_single _ _ hgne, ← hold]
            unfold pickRicher
            rw [if_pos hlt]
          · rw [assocFindRow_assocReplace_ne _ _ _ _ (fun hh2 => he hh2.symm),
              if_neg he]
            simp only [List.append_nil]
            exact ihfind e
      · have hstep := dedupStep_eq_keep ef (dedupState ef l) r old hfind hlt
        refine ⟨?_, ?_, ?_⟩
        · intro p hp
          rw [hstate, hstep] at hp
          exact ihkey p hp
        · rw [hstate, hstep]
          exact ihnodup
        · intro e
          rw [hstate, hstep, hgroup e]
          by_cases he : dedupKey ef r = e
          · subst he
            rw [hfind, if_pos rfl]
            have hne2 : emailGroup ef l (dedupKey ef r) ++ [r] ≠ [] := by simp
            rw [if_neg hne2]
            congr 1
            rw [firstMaxRow_append_single _ _ hgne, ← hold]
            unfold pickRicher
            rw [if_neg hlt]
          · rw [if_neg he]
            simp only [List.append_nil]
            exact ihfind e

/-- With distinct, self-describing keys, filtering the map's values by a
dedup key yields exactly the stored entry for that key. -/
theorem values_filter_of_state (ef : Str) (st : List (Str × Row)) (e : Str)
    (hkey : ∀ p ∈ st, dedupKey ef p.2 = p.1)
    (hnodup : (st.map Prod.fst).Nodup) :
    (st.map Prod.snd).filter (fun r => decide (dedupKey ef r = e)) =
      (assocFindRow st e).toList := by
  induction st with
  | nil => simp [assocFindRow]
  | cons p ps ih =>
    have hp : dedupKey ef p.2 = p.1 := hkey p (List.mem_cons_self _ _)
    have hkey' : ∀ q ∈ ps, dedupKey ef q.2 = q.1 := fun q hq =>
      hkey q (List.mem_cons_of_mem _ hq)
    have hnodup' : (ps.map Prod.fst).Nodup :=
      (List.nodup_cons.mp (by simpa using hnodup)).2
    by_cases hpe : p.1 = e
    · have hnotmem : p.1 ∉ ps.map Prod.fst :=
        (List.nodup_cons.mp (by simpa using hnodup)).1
      have hnone : assocFindRow ps e = none := by
        rw [assocFindRow_eq_none_iff]
        rw [← hpe]
        exact hnotmem
      have htail : (ps.map Prod.snd).filter
          (fun r => decide (dedupKey ef r = e)) = [] := by
        rw [ih hkey' hnodup', hnone]
        rfl
      have hcond : decide (dedupKey ef p.2 = e) = true := by
        simp [hp, hpe]
      simp [List.filter_cons, hcond, htail, assocFindRow, hpe]
    · have hcond : ¬ (dedupKey ef p.2 = e) := by rw [hp]; exact hpe
      simp [List.filter_cons, hcond, assocFindRow, hpe, ih hkey' hnodup']

/-- C1: after the filter and deduplicate stages of `processSingleEmailCSV`,
for every dedup key `e` (lower-cased, trimmed email) occurring in the
filtered input, exactly one surviving row has that key — namely the row of
that key class with the maximum number of non-empty field values, with ties
resolved in favour of the earliest-seen row. -/
theorem dedup_invariant (emailField : Str) (rows : List Row) (e : Str)
    (he : ∃ r ∈ filterValidEmails emailField rows, dedupKey emailField r = e) :
    ((filterAndDedup emailField rows).filter
        (fun r => decide (dedupKey emailField r = e)) =
      [firstMaxRow (emailGroup emailField (filterValidEmails emailField rows) e)]) ∧
    firstMaxRow (emailGroup emailField (filterValidEmails emailField rows) e) ∈
      emailGroup emailField (filterValidEmails emailField rows) e ∧
    (∀ r ∈ emailGroup emailField (filterValidEmails emailField rows) e,
      countNonEmpty r ≤
        countNonEmpty
          (firstMaxRow (emailGroup emailField (filterValidEmails emailField rows) e))) ∧
    (∃ l1 l2,
      emailGroup emailField (filterValidEmails emailField rows) e =
        l1 ++ firstMaxRow (emailGroup emailField (filterValidEmails emailField rows) e) :: l2 ∧
      ∀ r ∈ l1, countNonEmpty r <
        countNonEmpty
          (firstMaxRow (emailGroup emailField (filterValidEmails emailField rows) e))) := by
  obtain ⟨r0, hr0, hkey0⟩ := he
  have hmem : r0 ∈ emailGroup emailField (filterValidEmails emailField rows) e := by
    rw [emailGroup, List.mem_filter]
    exact ⟨hr0, by simp [hkey0]⟩
  have hgne : emailGroup emailField (filterValidEmails emailField rows) e ≠ [] := by
    intro hnil
    rw [hnil] at hmem
    exact List.not_mem_nil _ hmem
  obtain ⟨hkeyinv, hnodup, hfind⟩ :=
    dedupState_spec emailField (filterValidEmails emailField rows)
  constructor
  · have hf := hfind e
    rw [if_neg hgne] at hf
    have := values_filter_of_state emailField
      (dedupState emailField (filterValidEmails emailField rows)) e hkeyinv hnodup
    rw [hf] at this
    exact this
  · match hg : emailGroup emailField (filterValidEmails emailField rows) e, hgne with
    | x :: xs, _ =>
      refine ⟨?_, ?_, ?_⟩
      · exact foldl_pickRicher_mem x xs
      · intro r hr
        exact foldl_pickRicher_max x xs r hr
      · exact foldl_pickRicher_earliest x xs

/-- C1 witness: two rows with the same email (differing in case) where the
later row has more non-empty fields; the dedup stage keeps exactly the
richer row. -/
theorem dedup_invariant_witness :
    (∃ r ∈ filterValidEmails (strOf "email")
        [[(strOf "email", strOf "A@x.com")],
         [(strOf "email", strOf "a@x.com"), (strOf "title", strOf "CEO")]],
      dedupKey (strOf "email") r = strOf "a@x.com") ∧
    (filterAndDedup (strOf "email")
        [[(strOf "email", strOf "A@x.com")],
         [(strOf "email", strOf "a@x.com"), (strOf "title", strOf "CEO")]]).filter
      (fun r => decide (dedupKey (strOf "email") r = strOf "a@x.com")) =
      [firstMaxRow (emailGroup (strOf "email")
        (filterValidEmails (strOf "email")
          [[(strOf "email", strOf "A@x.com")],
           [(strOf "email", strOf "a@x.com"), (strOf "title", strOf "CEO")]])
        (strOf "a@x.com"))] :=
  ⟨⟨[(strOf "email", strOf "A@x.com")], by decide⟩,
    (dedup_invariant (strOf "email")
      [[(strOf "email", strOf "A@x.com")],
       [(strOf "email", strOf "a@x.com"), (strOf "title", strOf "CEO")]]
      (strOf "a@x.com")
      ⟨[(strOf "email", strOf "A@x.com")], by decide⟩).1⟩

/-!
## Claims C3 / C4: peer assignment ("other_dm" round-robin)
(`processMultiEmailCSV` lines 940-1018, `processSingleEmailCSV` lines
612-681, `isGenericEmail` of auth.ts lines 30-34)
-/

def emailKey : Str := strOf "email"

def titleKey : Str := strOf "title"

def companyKey : Str := strOf "company"

def cleanedCompanyNameKey : Str := strOf "cleaned_company_name"

def otherDmNameKey : Str := strOf "other_dm_name"

def otherDmEmailKey : Str := strOf "other_dm_email"

def otherDmTitleKey : Str := strOf "other_dm_title"

/-- The roster of organizational mailbox local parts of `isGenericEmail`
(auth.ts line 31). -/
def genericPrefixes : List Str :=
  [strOf "info", strOf "contact", strOf "hello", strOf "support",
   strOf "admin", strOf "sales", strOf "marketing", strOf "help",
   strOf "service"]

/-- `isGenericEmail` (auth.ts lines 30-34):
`genericPrefixes.includes(email.split('@')[0].toLowerCase())`. -/
def isGenericEmail (email : Str) : Bool :=
  decide (lowerStr ((splitOnChar '@' email).getD 0 []) ∈ genericPrefixes)

/-- JavaScript `a || b` on strings: first truthy. -/
def orElse (a b : Str) : Str := if a = [] then b else a

/-- The valid-contact filter of the multi-email peer stage (csvProcessing.ts
lines 946-957): some resolvable person name (fullName/full_name, or
first+last under both spellings) and a non-generic email. -/
def isValidContact (row : Row) : Bool :=
  let email := rget row emailKey
  let fullName := orElse (rget row (strOf "fullName")) (rget row (strOf "full_name"))
  let firstName := orElse (rget row (strOf "firstName")) (rget row (strOf "first_name"))
  let lastName := orElse (rget row (strOf "lastName")) (rget row (strOf "last_name"))
  let hasFullName := decide (fullName ≠ []) && decide (trimStr fullName ≠ [])
  let hasFirstAndLastName :=
    (decide (firstName ≠ []) && decide (trimStr firstName ≠ [])) &&
    (decide (lastName ≠ []) && decide (trimStr lastName ≠ []))
  (hasFullName || hasFirstAndLastName) && !(isGenericEmail email)

/-- The peer-name resolution of the multi-email stage (lines 969-984):
`fullName`, then `full_name`, then camel-case first+last, then snake-case
first+last — the two spellings are not mixed. -/
def extractPeerName (next : Row) : Str :=
  if rget next (strOf "fullName") ≠ [] ∧
      trimStr (rget next (strOf "fullName")) ≠ [] then
    trimStr (rget next (strOf "fullName"))
  else if rget next (strOf "full_name") ≠ [] ∧
      trimStr (rget next (strOf "full_name")) ≠ [] then
    trimStr (rget next (strOf "full_name"))
  else if rget next (strOf "firstName") ≠ [] ∧ rget next (strOf "lastName") ≠ [] then
    trimStr (rget next (strOf "firstName")) ++ strOf " " ++
      trimStr (rget next (strOf "lastName"))
  else if rget next (strOf "first_name") ≠ [] ∧ rget next (strOf "last_name") ≠ [] then
    trimStr (rget next (strOf "first_name")) ++ strOf " " ++
      trimStr (rget next (strOf "last_name"))
  else []

/-- The company-name guard (lines 991-998): the resolved name matches the
successor contact's `company` or `cleaned_company_name`
(case-insensitively). -/
def isCompanyNameMatch (name : Str) (next : Row) : Bool :=
  (decide (rget next companyKey ≠ []) &&
    decide (lowerStr name = lowerStr (rget next companyKey))) ||
  (decide (rget next cleanedCompanyNameKey ≠ []) &&
    decide (lowerStr name = lowerStr (rget next cleanedCompanyNameKey)))

/-- The three assignments of lines 1003-1005, in their order. -/
def setPeerFields (r : Row) (name title email : Str) : Row :=
  rset (rset (rset r otherDmNameKey name) otherDmTitleKey title) otherDmEmailKey email

/-- The body of the `validContacts.forEach` for one current contact (lines
963-1013): resolve the successor's name; assign unless the name is empty or
matches the successor's company name. -/
def peerUpdate (r next : Row) : Row :=
  let otherDmName := extractPeerName next
  let otherDmTitle := rget next titleKey
  if otherDmName ≠ [] ∧ trimStr otherDmName ≠ [] then
    if isCompanyNameMatch otherDmName next then r
    else setPeerFields r otherDmName otherDmTitle (rget next emailKey)
  else r

/-- One domain group of the multi-email peer-assignment stage
(csvProcessing.ts lines 943-1018).  The code mutates `validContacts[i]` in
place while reading only never-written fields of `validContacts[(i+1) % N]`,
so the loop is equivalent to this per-position functional update of the
group's row list: a valid row at group position `j` (the `i`-th valid row)
is updated against the `(i+1) mod N`-th valid row; other rows are
unchanged. -/
def assignPeersGroup (g : List Row) : List Row :=
  if 1 < g.length then
    let valid := g.filter isValidContact
    if 1 < valid.length then
      (List.range g.length).map (fun j =>
        let r := g.getD j []
        if isValidContact r then
          let i := ((g.take j).filter isValidContact).length
          peerUpdate r (valid.getD ((i + 1) % valid.length) [])
        else r)
    else g
  else g

/-- The peer-name resolution of the single-email stage (lines 633-656):
snake-case before camel-case, mixing of the two spellings of first/last
allowed, with a final `'Full Name'` fallback. -/
def extractPeerNameSingle (next : Row) : Str :=
  let n1 :=
    if rget next (strOf "full_name") ≠ [] ∧
        trimStr (rget next (strOf "full_name")) ≠ [] then
      trimStr (rget next (strOf "full_name"))
    else if rget next (strOf "fullName") ≠ [] ∧
        trimStr (rget next (strOf "fullName")) ≠ [] then
      trimStr (rget next (strOf "fullName"))
    else
      let firstName :=
        if rget next (strOf "first_name") ≠ [] then
          trimStr (rget next (strOf "first_name"))
        else if rget next (strOf "firstName") ≠ [] then
          trimStr (rget next (strOf "firstName"))
        else []
      let lastName :=
        if rget next (strOf "last_name") ≠ [] then
          trimStr (rget next (strOf "last_name"))
        else if rget next (strOf "lastName") ≠ [] then
          trimStr (rget next (strOf "lastName"))
        else []
      if firstName ≠ [] ∧ lastName ≠ [] then
        firstName ++ strOf " " ++ lastName
      else []
  if n1 = [] ∧ rget next (strOf "Full Name") ≠ [] then
    trimStr (rget next (strOf "Full Name"))
  else n1

/-- The title resolution of the single-email stage (lines 661-665). -/
def extractTitleSingle (next : Row) : Str :=
  if rget next (strOf "title") ≠ [] then trimStr (rget next (strOf "title"))
  else if rget next (strOf "Title") ≠ [] then trimStr (rget next (strOf "Title"))
  else []

/-- The three assignments of lines 670-672, in their order. -/
def setPeerFieldsSingle (r : Row) (name email title : Str) : Row :=
  rset (rset (rset r otherDmNameKey name) otherDmEmailKey email) otherDmTitleKey title

/-- One domain group of the single-email peer-assignment stage
(csvProcessing.ts lines 615-681): round-robin over ALL rows of the group
(no valid-contact filtering and no company-name guard); assign whenever the
successor's name resolves. -/
def assignPeersGroupSingle (emailField : Str) (g : List Row) : List Row :=
  if 1 < g.length then
    (List.range g.length).map (fun i =>
      let r := g.getD i []
      let next := g.getD ((i + 1) % g.length) []
      let otherDmName := extractPeerNameSingle next
      if otherDmName ≠ [] then
        setPeerFieldsSingle r otherDmName (rget next emailField)
          (extractTitleSingle next)
      else r)
  else g

theorem getD_map_range {β : Type} (f : Nat → β) (n j : Nat) (d : β)
    (hj : j < n) : ((List.range n).map f).getD j d = f j := by
  rw [getD_map_of_lt f (List.range n) j d 0 (by simpa using hj)]
  congr 1
  rw [List.getD_eq_getElem _ _ (by simpa using hj)]
  apply List.getElem_range

theorem length_filter_take_lt (p : Row → Bool) (g : List Row) (j : Nat)
    (hj : j < g.length) (hv : p (g.getD j []) = true) :
    ((g.take j).filter p).length < (g.filter p).length := by
  have hsplit : g = g.take j ++ g.getD j [] :: g.drop (j + 1) := by
    rw [List.getD_eq_getElem g [] hj]
    conv_lhs => rw [← List.take_append_drop j g]
    congr 1
    exact List.drop_eq_getElem_cons hj
  conv_rhs => rw [hsplit]
  rw [List.filter_append, List.length_append, List.filter_cons, if_pos hv,
    List.length_cons]
  omega

theorem succ_mod_ne (i N : Nat) (h2 : 2 ≤ N) (hi : i < N) :
    (i + 1) % N ≠ i := by
  by_cases h : i + 1 < N
  · rw [Nat.mod_eq_of_lt h]; omega
  · have hiN : i + 1 = N := by omega
    rw [hiN, Nat.mod_self]; omega

theorem filter_getD_mem (p : Row → Bool) (l : List Row) (k : Nat)
    (hk : k < (l.filter p).length) :
    (l.filter p).getD k [] ∈ l ∧ p ((l.filter p).getD k []) = true := by
  have hg : (l.filter p).getD k [] = (l.filter p)[k] :=
    List.getD_eq_getElem _ _ hk
  have hmem : (l.filter p).getD k [] ∈ l.filter p := by
    rw [hg]; exact List.getElem_mem _
  exact ⟨List.mem_of_mem_filter hmem, List.of_mem_filter hmem⟩

theorem assignPeersGroup_getD_of_valid (g : List Row) (j : Nat)
    (hj : j < g.length) (hv : isValidContact (g.getD j []) = true)
    (h2 : 1 < (g.filter isValidContact).length) :
    (assignPeersGroup g).getD j [] =
      peerUpdate (g.getD j [])
        ((g.filter isValidContact).getD
          ((((g.take j).filter isValidContact).length + 1) %
            (g.filter isValidContact).length) []) := by
  have h1 : 1 < g.length := by
    have := List.length_filter_le isValidContact g
    omega
  simp only [assignPeersGroup, if_pos h1, if_pos h2]
  rw [getD_map_range _ g.length j [] hj, if_pos hv]

theorem peerUpdate_cases (r next : Row) :
    peerUpdate r next = r ∨
    peerUpdate r next =
      setPeerFields r (extractPeerName next) (rget next titleKey)
        (rget next emailKey) := by
  simp only [peerUpdate]
  split
  · split
    · left; rfl
    · right; rfl
  · left; rfl

theorem isValidContact_not_generic (r : Row) (h : isValidContact r = true) :
    isGenericEmail (rget r emailKey) = false := by
  cases hb : isGenericEmail (rget r emailKey) with
  | false => rfl
  | true =>
    simp only [isValidContact] at h
    rw [hb] at h
    simp at h

/-- C3 counterexample group: two valid contacts sharing a domain, where the
second contact's name is resolvable for the validity check (which mixes the
`firstName`/`last_name` spellings) but not for the assignment's name
extraction (which does not mix spellings) — so the first valid candidate
receives no peer name. -/
def peerGroupCE : List Row :=
  [[(emailKey, strOf "a@x.com"), (strOf "fullName", strOf "Alice A")],
   [(emailKey, strOf "b@x.com"), (strOf "firstName", strOf "Bob"),
    (strOf "last_name", strOf "Builder")]]

/-- C3 counterexample: in a domain group with 2 valid candidates, the first
valid candidate ends with an EMPTY `other_dm_name` — peer assignment is not
total over valid candidates, contradicting the claim. -/
theorem peer_assignment_counterexample :
    2 ≤ (peerGroupCE.filter isValidContact).length ∧
    isValidContact (peerGroupCE.getD 0 []) = true ∧
    rget ((assignPeersGroup peerGroupCE).getD 0 []) otherDmNameKey = [] := by
  decide

/-- C3 (amended): in the multi-email peer-assignment stage, in a domain
group whose valid-candidate list has at least 2 entries, the `i`-th valid
candidate is evaluated against the `(i+1) mod N`-th valid candidate — a
position always different from its own — which is itself a valid contact of
the group; the candidate's row is updated by `peerUpdate` against that
successor, and when the successor's name resolves non-empty and does not
match the successor's own company fields, the candidate receives that
non-empty name as `other_dm_name` and the successor's email as
`other_dm_email`. -/
theorem peer_assignment_round_robin (g : List Row) (j : Nat)
    (hj : j < g.length) (hv : isValidContact (g.getD j []) = true)
    (hN : 2 ≤ (g.filter isValidContact).length) :
    let valid := g.filter isValidContact
    let i := ((g.take j).filter isValidContact).length
    let next := valid.getD ((i + 1) % valid.length) []
    (i + 1) % valid.length ≠ i ∧
    next ∈ g ∧
    isValidContact next = true ∧
    (assignPeersGroup g).getD j [] = peerUpdate (g.getD j []) next ∧
    (extractPeerName next ≠ [] → trimStr (extractPeerName next) ≠ [] →
      isCompanyNameMatch (extractPeerName next) next = false →
      rget ((assignPeersGroup g).getD j []) otherDmNameKey =
        extractPeerName next ∧
      rget ((assignPeersGroup g).getD j []) otherDmEmailKey =
        rget next emailKey) := by
  intro valid i next
  have hi : i < valid.length := length_filter_take_lt isValidContact g j hj hv
  have hmod : (i + 1) % valid.length < valid.length := Nat.mod_lt _ (by omega)
  obtain ⟨hnextg, hnextvalid⟩ := filter_getD_mem isValidContact g _ hmod
  have hout : (assignPeersGroup g).getD j [] = peerUpdate (g.getD j []) next :=
    assignPeersGroup_getD_of_valid g j hj hv (by omega)
  refine ⟨succ_mod_ne i valid.length hN hi, hnextg, hnextvalid, hout, ?_⟩
  intro hn ht hc
  rw [hout]
  simp only [peerUpdate]
  rw [if_pos ⟨hn, ht⟩, if_neg (by simp [hc])]
  constructor
  · unfold setPeerFields
    rw [rget_rset_ne _ _ _ _ (by decide), rget_rset_ne _ _ _ _ (by decide),
      rget_rset_self]
  · unfold setPeerFields
    rw [rget_rset_self]

/-- C3 witness group: two valid contacts with directly resolvable full
names. -/
def peerGroupW : List Row :=
  [[(emailKey, strOf "a@x.com"), (strOf "fullName", strOf "Alice A")],
   [(emailKey, strOf "b@x.com"), (strOf "fullName", strOf "Bob B")]]

/-- C3 witness: the amended round-robin theorem applied to a concrete
two-contact group at position 0. -/
theorem peer_assignment_round_robin_witness :
    (0 : Nat) < peerGroupW.length ∧
    (let valid := peerGroupW.filter isValidContact
     let i := ((peerGroupW.take 0).filter isValidContact).length
     let next := valid.getD ((i + 1) % valid.length) []
     (i + 1) % valid.length ≠ i ∧
     next ∈ peerGroupW ∧
     isValidContact next = true ∧
     (assignPeersGroup peerGroupW).getD 0 [] = peerUpdate (peerGroupW.getD 0 []) next ∧
     (extractPeerName next ≠ [] → trimStr (extractPeerName next) ≠ [] →
       isCompanyNameMatch (extractPeerName next) next = false →
       rget ((assignPeersGroup peerGroupW).getD 0 []) otherDmNameKey =
         extractPeerName next ∧
       rget ((assignPeersGroup peerGroupW).getD 0 []) otherDmEmailKey =
         rget next emailKey)) :=
  ⟨by decide,
    peer_assignment_round_robin peerGroupW 0 (by decide) (by decide) (by decide)⟩

/-- C4 counterexample group for the single-email stage: a named contact and
a generic `INFO@Acme.com` row sharing a domain. -/
def genericPeerGroupCE : List Row :=
  [[(strOf "email", strOf "alice@acme.com"), (strOf "full_name", strOf "Alice A")],
   [(strOf "email", strOf "INFO@Acme.com"), (strOf "full_name", strOf "Info Desk")]]

/-- C4 counterexample: `isGenericEmail` does classify `INFO@Acme.com` as
generic, yet the single-email peer-assignment stage (which applies no
genericity filter) assigns exactly that email as the first row's
`other_dm_email`. -/
theorem generic_email_counterexample :
    isGenericEmail (strOf "INFO@Acme.com") = true ∧
    rget ((assignPeersGroupSingle (strOf "email") genericPeerGroupCE).getD 0 [])
      otherDmEmailKey = strOf "INFO@Acme.com" := by
  decide

/-- C4 (amended): `isGenericEmail` classifies `INFO@Acme.com` as a generic
mailbox, and in the MULTI-email peer-assignment stage a row is either left
unchanged or assigned the identity of a valid contact of its group — one
with a resolvable name and a non-generic email — so a generic email is
never assigned there; the single-email stage applies no such filter (see
the counterexample). -/
theorem generic_email_peer_eligibility :
    isGenericEmail (strOf "INFO@Acme.com") = true ∧
    ∀ g : List Row, ∀ j : Nat, j < g.length →
      ((assignPeersGroup g).getD j [] = g.getD j [] ∨
        ∃ next ∈ g, isValidContact next = true ∧
          isGenericEmail (rget next emailKey) = false ∧
          (assignPeersGroup g).getD j [] =
            setPeerFields (g.getD j []) (extractPeerName next)
              (rget next titleKey) (rget next emailKey)) := by
  refine ⟨by decide, ?_⟩
  intro g j hj
  by_cases h1 : 1 < g.length
  · by_cases h2 : 1 < (g.filter isValidContact).length
    · by_cases hv : isValidContact (g.getD j []) = true
      · have hout := assignPeersGroup_getD_of_valid g j hj hv h2
        have hi : ((g.take j).filter isValidContact).length <
            (g.filter isValidContact).length :=
          length_filter_take_lt isValidContact g j hj hv
        have hmod : (((g.take j).filter isValidContact).length + 1) %
            (g.filter isValidContact).length <
            (g.filter isValidContact).length := Nat.mod_lt _ (by omega)
        obtain ⟨hnextg, hnextvalid⟩ := filter_getD_mem isValidContact g _ hmod
        rcases peerUpdate_cases (g.getD j [])
            ((g.filter isValidContact).getD
              ((((g.take j).filter isValidContact).length + 1) %
                (g.filter isValidContact).length) []) with hcase | hcase
        · left; rw [hout, hcase]
        · right
          exact ⟨_, hnextg, hnextvalid, isValidContact_not_generic _ hnextvalid,
            by rw [hout, hcase]⟩
      · left
        simp only [assignPeersGroup, if_pos h1, if_pos h2]
        rw [getD_map_range _ g.length j [] hj, if_neg hv]
    · left
      simp only [assignPeersGroup, if_pos h1, if_neg h2]
  · left
    simp only [assignPeersGroup, if_neg h1]

/-- C4 witness: the eligibility alternative applied to a concrete group in
which an assignment does occur. -/
theorem generic_email_peer_eligibility_witness :
    (0 : Nat) < peerGroupW.length ∧
    ((assignPeersGroup peerGroupW).getD 0 [] = peerGroupW.getD 0 [] ∨
      ∃ next ∈ peerGroupW, isValidContact next = true ∧
        isGenericEmail (rget next emailKey) = false ∧
        (assignPeersGroup peerGroupW).getD 0 [] =
          setPeerFields (peerGroupW.getD 0 []) (extractPeerName next)
            (rget next titleKey) (rget next emailKey)) :=
  ⟨by decide, generic_email_peer_eligibility.2 peerGroupW 0 (by decide)⟩

/-!
## Tabular parser and serializer (`parseCSV` lines 47-109, `dataToCSV`
lines 114-143) — claims C7 and C5
-/

/-- The quote-aware field scanner of `parseCSV` (lines 69-87): a double
quote toggles the in-quotes flag and is dropped; a comma outside quotes
ends the field; every other character is appended to the current field. -/
def splitFieldsAux : List Char → Bool → Str → List Str → List Str
  | [], _, field, acc => acc ++ [field]
  | c :: cs, inQuotes, field, acc =>
    if c = '"' then splitFieldsAux cs (!inQuotes) field acc
    else if c = ',' ∧ inQuotes = false then
      splitFieldsAux cs inQuotes [] (acc ++ [field])
    else splitFieldsAux cs inQuotes (field ++ [c]) acc

def splitFields (line : Str) : List Str := splitFieldsAux line false [] []

/-- `csvString.split('\n').filter(line => line.trim().length > 0)`
(line 50). -/
def csvLines (s : Str) : List Str :=
  (splitOnChar '\n' s).filter (fun l => decide (trimStr l ≠ []))

/-- `lines[0].split(',').map(h => h.trim())` (line 56). -/
def parseHeaders (line : Str) : List Str :=
  (splitOnChar ',' line).map trimStr

/-- Lines 89-92: when the quote-aware field count does not match the header
count, fall back to the naive comma split. -/
def parseRowFields (headers : List Str) (line : Str) : List Str :=
  let fields := splitFields line
  if fields.length ≠ headers.length then splitOnChar ',' line else fields

/-- `headers.forEach((header, index) => row[header] =
fields[index]?.trim() || '')` (lines 94-96), consuming the field list in
step with the headers (a missing trailing field reads as the empty
string). -/
def buildRowAux : List Str → List Str → Row → Row
  | [], _, r => r
  | h :: hs, fields, r =>
    buildRowAux hs (fields.drop 1) (rset r h (trimStr (fields.headD [])))

def buildRow (headers fields : List Str) : Row := buildRowAux headers fields []

/-- `parseCSV` (csvProcessing.ts lines 47-109).  The chunked loop over data
lines visits each of `lines[1..]` exactly once, so it is modelled as a
direct map; the surrounding `try/catch` is dead in the model since none of
the string operations can throw. -/
def parseCSV (s : Str) : List Str × List Row :=
  match csvLines s with
  | [] => ([], [])
  | l0 :: rest =>
    (parseHeaders l0,
      rest.map (fun line => buildRow (parseHeaders l0) (parseRowFields (parseHeaders l0) line)))

/-- The three forced placeholder columns of `dataToCSV` (line 117). -/
def importantFields : List Str := [otherDmNameKey, otherDmEmailKey, otherDmTitleKey]

/-- Lines 116-123: append each important field not already present. -/
def ensuredHeaders (headers : List Str) : List Str :=
  importantFields.foldl (fun hs f => if f ∈ hs then hs else hs ++ [f]) headers

/-- Lines 133-138: a value containing a comma or a double quote is wrapped
in double quotes with each internal double quote doubled. -/
def encodeField (v : Str) : Str :=
  if containsSub v (strOf ",") || containsSub v (strOf "\"") then
    '"' :: (v.foldr (fun c acc => if c = '"' then '"' :: '"' :: acc else c :: acc) []) ++ ['"']
  else v

/-- `parts.join(sep)` for a single-character separator. -/
def joinSep (sep : Char) : List Str → Str
  | [] => []
  | [p] => p
  | p :: q :: ps => p ++ sep :: joinSep sep (q :: ps)

/-- `dataToCSV` (csvProcessing.ts lines 114-143).  The in-loop mutation
`row[header] = ''` for an undefined important field only materializes the
empty string the read would produce anyway, so the row serialization is the
pure map below. -/
def dataToCSV (headers : List Str) (data : List Row) : Str :=
  joinSep '\n'
    (joinSep ',' (ensuredHeaders headers) ::
      data.map (fun row =>
        joinSep ',' ((ensuredHeaders headers).map (fun h => encodeField (rget row h)))))

theorem splitOnCharAux_ne_nil (sep : Char) (cs : List Char) (acc : Str) :
    splitOnCharAux sep cs acc ≠ [] := by
  induction cs generalizing acc with
  | nil => simp [splitOnCharAux]
  | cons c cs ih =>
    by_cases h : c = sep
    · simp [splitOnCharAux, h]
    · simp [splitOnCharAux, h, ih]

/-- C7 counterexample: the single header-only line `"a,b"` parses to
`(['a','b'], [])`, not to `([], [])` as the claim states — the header list
is not empty. -/
theorem parseCSV_header_only_counterexample :
    (parseCSV (strOf "a,b")).1 = [strOf "a", strOf "b"] ∧
    (parseCSV (strOf "a,b")).2 = [] ∧
    parseCSV (strOf "a,b") ≠ (([] : List Str), ([] : List Row)) := by
  decide

/-- C7 (amended): `parseCSV` is a total function (the `try/catch` catches
nothing in the model since no operation throws); the empty input yields
`([], [])`, and a single header-only line yields an empty ROW list but a
NON-empty header list. -/
theorem parseCSV_empty_and_header_only :
    parseCSV [] = ([], []) ∧
    (∀ line : Str, '\n' ∉ line → trimStr line ≠ [] →
      (parseCSV line).1 ≠ [] ∧ (parseCSV line).2 = []) := by
  refine ⟨by decide, ?_⟩
  intro line hnl hblank
  have hsplit : splitOnChar '\n' line = [line] :=
    splitOnChar_of_not_mem _ _ hnl
  have hlines : csvLines line = [line] := by
    rw [csvLines, hsplit]
    simp [hblank]
  simp only [parseCSV, hlines]
  refine ⟨?_, by simp⟩
  simp only [parseHeaders, ne_eq, List.map_eq_nil_iff]
  exact splitOnCharAux_ne_nil ',' line []

/-- C7 witness: the header-only clause of the amended theorem at the
concrete line `"x,y"`. -/
theorem parseCSV_empty_and_header_only_witness :
    ('\n' ∉ strOf "x,y") ∧
    (parseCSV (strOf "x,y")).1 ≠ [] ∧ (parseCSV (strOf "x,y")).2 = [] :=
  ⟨by decide,
    parseCSV_empty_and_header_only.2 (strOf "x,y") (by decide) (by decide)⟩

/-!
## Claim C5: round-trip of `parseCSV` and `dataToCSV` — supporting lemmas
-/

theorem dropWhile_self {α : Type} (p : α → Bool) (l : List α) :
    (l.dropWhile p).dropWhile p = l.dropWhile p := by
  induction l with
  | nil => rfl
  | cons c cs ih =>
    by_cases h : p c = true
    · simp [List.dropWhile_cons, h, ih]
    · simp [List.dropWhile_cons, h]

theorem dropWhile_eq_self_of_prefix {α : Type} (p : α → Bool) (l t : List α)
    (hl : l.dropWhile p = l) (ht : t <+: l) : t.dropWhile p = t := by
  cases t with
  | nil => rfl
  | cons c t' =>
    obtain ⟨rest, hrest⟩ := ht
    subst hrest
    by_cases h : p c = true
    · rw [List.cons_append, List.dropWhile_cons, if_pos h] at hl
      have hlen := congrArg List.length hl
      have hle : (List.dropWhile p (t' ++ rest)).length ≤ (t' ++ rest).length :=
        (List.dropWhile_suffix p).sublist.length_le
      simp at hlen hle
      omega
    · rw [List.dropWhile_cons, if_neg h]

theorem trimStr_front_clean (s : Str) : (trimStr s).dropWhile isWsChar = trimStr s := by
  have hfront : (s.dropWhile isWsChar).dropWhile isWsChar = s.dropWhile isWsChar :=
    dropWhile_self isWsChar s
  apply dropWhile_eq_self_of_prefix isWsChar (s.dropWhile isWsChar) _ hfront
  rw [trimStr]
  rw [← List.reverse_reverse (s.dropWhile isWsChar)]
  apply List.reverse_prefix.mpr
  rw [List.reverse_reverse]
  exact List.dropWhile_suffix _

theorem trimStr_idem (s : Str) : trimStr (trimStr s) = trimStr s := by
  conv_lhs => rw [trimStr, trimStr_front_clean]
  have hrev : (trimStr s).reverse = (s.dropWhile isWsChar).reverse.dropWhile isWsChar := by
    rw [trimStr, List.reverse_reverse]
  rw [hrev, dropWhile_self, ← hrev, List.reverse_reverse]

theorem mem_trimStr (s : Str) (c : Char) (hc : c ∈ trimStr s) : c ∈ s := by
  rw [trimStr] at hc
  rw [List.mem_reverse] at hc
  have h1 := (List.dropWhile_suffix isWsChar).subset hc
  rw [List.mem_reverse] at h1
  exact (List.dropWhile_suffix isWsChar).subset h1

theorem trimStr_ne_nil_of_mem (s : Str) (c : Char) (hc : c ∈ s)
    (hw : isWsChar c = false) : trimStr s ≠ [] := by
  intro h
  rw [trimStr] at h
  rw [List.reverse_eq_nil_iff, List.dropWhile_eq_nil_iff] at h
  have hcmem : c ∈ s.dropWhile isWsChar ∨ c ∈ s.takeWhile isWsChar := by
    rcases List.mem_append.mp
      (by rw [List.takeWhile_append_dropWhile]; exact hc :
        c ∈ s.takeWhile isWsChar ++ s.dropWhile isWsChar) with h1 | h1
    · right; exact h1
    · left; exact h1
  rcases hcmem with h1 | h1
  · have := h c (List.mem_reverse.mpr h1)
    rw [hw] at this
    exact Bool.noConfusion this
  · have := List.mem_takeWhile_imp h1
    rw [hw] at this
    exact Bool.noConfusion this

theorem mem_splitOnCharAux (sep : Char) (cs : List Char) (acc piece : Str)
    (hp : piece ∈ splitOnCharAux sep cs acc) (c : Char) (hc : c ∈ piece) :
    c ∈ cs ∨ c ∈ acc := by
  induction cs generalizing acc with
  | nil =>
    simp only [splitOnCharAux, List.mem_singleton] at hp
    subst hp
    right
    exact List.mem_reverse.mp hc
  | cons d ds ih =>
    by_cases hd : d = sep
    · simp only [splitOnCharAux, if_pos hd] at hp
      rcases List.mem_cons.mp hp with h | h
      · subst h; right; exact List.mem_reverse.mp hc
      · rcases ih [] h with h' | h'
        · left; exact List.mem_cons_of_mem _ h'
        · exact absurd h' (List.not_mem_nil c)
    · simp only [splitOnCharAux, if_neg hd] at hp
      rcases ih (d :: acc) hp with h | h
      · left; exact List.mem_cons_of_mem _ h
      · rcases List.mem_cons.mp h with h' | h'
        · left; rw [h']; exact List.mem_cons_self _ _
        · right; exact h'

theorem mem_of_mem_splitOnChar (sep : Char) (s piece : Str)
    (hp : piece ∈ splitOnChar sep s) (c : Char) (hc : c ∈ piece) : c ∈ s := by
  rcases mem_splitOnCharAux sep s [] piece hp c hc with h | h
  · exact h
  · exact absurd h (List.not_mem_nil c)

theorem not_mem_of_mem_splitOnCharAux (sep : Char) (cs : List Char)
    (acc piece : Str) (hacc : sep ∉ acc) (hp : piece ∈ splitOnCharAux sep cs acc) :
    sep ∉ piece := by
  induction cs generalizing acc with
  | nil =>
    simp only [splitOnCharAux, List.mem_singleton] at hp
    subst hp
    rw [List.mem_reverse]
    exact hacc
  | cons d ds ih =>
    by_cases hd : d = sep
    · simp only [splitOnCharAux, if_pos hd] at hp
      rcases List.mem_cons.mp hp with h | h
      · subst h; rw [List.mem_reverse]; exact hacc
      · exact ih [] (List.not_mem_nil sep) h
    · simp only [splitOnCharAux, if_neg hd] at hp
      refine ih (d :: acc) ?_ hp
      intro hmem
      rcases List.mem_cons.mp hmem with h | h
      · exact hd h.symm
      · exact hacc h

theorem not_mem_of_mem_splitOnChar (sep : Char) (s piece : Str)
    (hp : piece ∈ splitOnChar sep s) : sep ∉ piece :=
  not_mem_of_mem_splitOnCharAux sep s [] piece (List.not_mem_nil sep) hp

theorem splitOnCharAux_append_no_sep (sep : Char) (p rest : Str) (acc : Str)
    (hp : sep ∉ p) :
    splitOnCharAux sep (p ++ rest) acc = splitOnCharAux sep rest (p.reverse ++ acc) := by
  induction p generalizing acc with
  | nil => simp
  | cons d p ih =>
    have hd : ¬ (d = sep) := fun h => hp (by rw [h]; exact List.mem_cons_self _ _)
    simp only [List.cons_append, splitOnCharAux, if_neg hd]
    show splitOnCharAux sep (p ++ rest) (d :: acc) =
      splitOnCharAux sep rest ((d :: p).reverse ++ acc)
    rw [ih _ (fun h => hp (List.mem_cons_of_mem _ h))]
    congr 1
    simp

theorem splitOnChar_joinSep (sep : Char) (parts : List Str) (hne : parts ≠ [])
    (hsep : ∀ p ∈ parts, sep ∉ p) :
    splitOnChar sep (joinSep sep parts) = parts := by
  suffices h : ∀ qs : List Str, ∀ acc : Str, qs ≠ [] → (∀ p ∈ qs, sep ∉ p) →
      splitOnCharAux sep (joinSep sep qs) acc =
        (acc.reverse ++ qs.headD []) :: qs.tail by
    rw [splitOnChar, h parts [] hne hsep]
    cases parts with
    | nil => exact absurd rfl hne
    | cons a t => simp
  intro qs
  induction qs with
  | nil => intro acc h; exact absurd rfl h
  | cons a t ih =>
    intro acc _ hq
    cases t with
    | nil =>
      show splitOnCharAux sep (joinSep sep [a]) acc = _
      have hja : joinSep sep [a] = a ++ [] := by simp [joinSep]
      rw [hja, splitOnCharAux_append_no_sep sep a [] acc (hq a (by simp))]
      simp [splitOnCharAux]
    | cons b t' =>
      show splitOnCharAux sep (joinSep sep (a :: b :: t')) acc = _
      have hj : joinSep sep (a :: b :: t') = a ++ sep :: joinSep sep (b :: t') := by
        simp [joinSep]
      rw [hj, splitOnCharAux_append_no_sep sep a _ acc (hq a (by simp))]
      simp only [splitOnCharAux, if_pos rfl]
      rw [ih [] (by simp) (fun p h => hq p (List.mem_cons_of_mem _ h))]
      simp

theorem encode_foldr_no_quote (v : Str) (hq : '"' ∉ v) :
    v.foldr (fun c acc => if c = '"' then '"' :: '"' :: acc else c :: acc) [] = v := by
  induction v with
  | nil => rfl
  | cons c cs ih =>
    have hc : ¬ (c = '"') := fun h => hq (by rw [h]; exact List.mem_cons_self _ _)
    simp only [List.foldr_cons, if_neg hc]
    rw [ih (fun h => hq (List.mem_cons_of_mem _ h))]

theorem containsSub_single_eq_mem (s : Str) (c : Char) :
    containsSub s [c] = decide (c ∈ s) := by
  induction s with
  | nil => simp [containsSub, startsWithStr]
  | cons d ds ih =>
    simp only [containsSub, startsWithStr, ih]
    by_cases h : d = c
    · subst h; simp [startsWithStr]
    · simp [startsWithStr, h, Ne.symm h]

theorem splitFieldsAux_plain (v rest : Str) (field : Str) (acc : List Str)
    (hvq : '"' ∉ v) (hvc : ',' ∉ v) :
    splitFieldsAux (v ++ rest) false field acc =
      splitFieldsAux rest false (field ++ v) acc := by
  induction v generalizing field with
  | nil => simp
  | cons c cs ih =>
    have hcq : ¬ (c = '"') := fun h => hvq (by rw [h]; exact List.mem_cons_self _ _)
    have hcc : ¬ (c = ',' ∧ (false : Bool) = false) := fun h =>
      hvc (by rw [← h.1]; exact List.mem_cons_self _ _)
    have hstep : splitFieldsAux ((c :: cs) ++ rest) false field acc =
        splitFieldsAux (cs ++ rest) false (field ++ [c]) acc := by
      rw [List.cons_append, splitFieldsAux, if_neg hcq, if_neg hcc]
    rw [hstep, ih (field ++ [c]) (fun h => hvq (List.mem_cons_of_mem _ h))
      (fun h => hvc (List.mem_cons_of_mem _ h))]
    congr 1
    simp

theorem splitFieldsAux_quoted (v rest : Str) (field : Str) (acc : List Str)
    (hvq : '"' ∉ v) :
    splitFieldsAux (v ++ rest) true field acc =
      splitFieldsAux rest true (field ++ v) acc := by
  induction v generalizing field with
  | nil => simp
  | cons c cs ih =>
    have hcq : ¬ (c = '"') := fun h => hvq (by rw [h]; exact List.mem_cons_self _ _)
    have hcc : ¬ (c = ',' ∧ (true : Bool) = false) := fun h => Bool.noConfusion h.2
    have hstep : splitFieldsAux ((c :: cs) ++ rest) true field acc =
        splitFieldsAux (cs ++ rest) true (field ++ [c]) acc := by
      rw [List.cons_append, splitFieldsAux, if_neg hcq, if_neg hcc]
    rw [hstep, ih (field ++ [c]) (fun h => hvq (List.mem_cons_of_mem _ h))]
    congr 1
    simp

theorem splitFieldsAux_encode (v rest : Str) (field : Str) (acc : List Str)
    (hv : '"' ∉ v) :
    splitFieldsAux (encodeField v ++ rest) false field acc =
      splitFieldsAux rest false (field ++ v) acc := by
  unfold encodeField
  by_cases h : (containsSub v (strOf ",") || containsSub v (strOf "\"")) = true
  · rw [if_pos h, encode_foldr_no_quote v hv]
    have hshape : (('"' :: v) ++ ['"']) ++ rest = '"' :: (v ++ ('"' :: rest)) := by
      simp
    rw [hshape]
    have h1 : splitFieldsAux ('"' :: (v ++ ('"' :: rest))) false field acc =
        splitFieldsAux (v ++ ('"' :: rest)) true field acc := by
      rw [splitFieldsAux, if_pos rfl]
      rfl
    rw [h1, splitFieldsAux_quoted v _ field acc hv]
    rw [splitFieldsAux, if_pos rfl]
    rfl
  · rw [if_neg h]
    have hcomma : ',' ∉ v := by
      intro hmem
      apply h
      have : containsSub v (strOf ",") = true := by
        rw [show strOf "," = [','] from rfl, containsSub_single_eq_mem]
        exact decide_eq_true hmem
      simp [this]
    exact splitFieldsAux_plain v rest field acc hv hcomma

theorem splitFieldsAux_join (vs : List Str) (field : Str) (acc : List Str)
    (hne : vs ≠ []) (hq : ∀ v ∈ vs, '"' ∉ v) :
    splitFieldsAux (joinSep ',' (vs.map encodeField)) false field acc =
      acc ++ (field ++ vs.headD []) :: vs.tail := by
  induction vs generalizing field acc with
  | nil => exact absurd rfl hne
  | cons v t ih =>
    cases t with
    | nil =>
      show splitFieldsAux (joinSep ',' [encodeField v]) false field acc = _
      have hj : joinSep ',' [encodeField v] = encodeField v ++ [] := by
        simp [joinSep]
      rw [hj, splitFieldsAux_encode v [] field acc (hq v (by simp))]
      simp [splitFieldsAux]
    | cons w t' =>
      show splitFieldsAux
        (joinSep ',' (encodeField v :: (w :: t').map encodeField)) false field acc = _
      have hj : joinSep ',' (encodeField v :: (w :: t').map encodeField) =
          encodeField v ++ ',' :: joinSep ',' ((w :: t').map encodeField) := by
        simp [joinSep]
      rw [hj, splitFieldsAux_encode v _ field acc (hq v (by simp))]
      have hstep : splitFieldsAux
          (',' :: joinSep ',' ((w :: t').map encodeField)) false (field ++ v) acc =
          splitFieldsAux (joinSep ',' ((w :: t').map encodeField)) false []
            (acc ++ [field ++ v]) := by
        simp [splitFieldsAux]
      rw [hstep, ih [] (acc ++ [field ++ v]) (by simp)
        (fun p h => hq p (List.mem_cons_of_mem _ h))]
      simp

theorem splitFields_join (vs : List Str) (hne : vs ≠ [])
    (hq : ∀ v ∈ vs, '"' ∉ v) :
    splitFields (joinSep ',' (vs.map encodeField)) = vs := by
  rw [splitFields, splitFieldsAux_join vs [] [] hne hq]
  cases vs with
  | nil => exact absurd rfl hne
  | cons a t => simp

theorem rget_cases (r : Row) (k : Str) :
    rget r k = [] ∨ ∃ p ∈ r, p.1 = k ∧ rget r k = p.2 := by
  induction r with
  | nil => left; rfl
  | cons p ps ih =>
    by_cases h : p.1 = k
    · right; exact ⟨p, List.mem_cons_self _ _, h, by simp [rget, h]⟩
    · rcases ih with h1 | ⟨q, hq, hqk, hqv⟩
      · left; simp [rget, h, h1]
      · right; exact ⟨q, List.mem_cons_of_mem _ hq, hqk, by simp [rget, h, hqv]⟩

theorem mem_rset (r : Row) (k v : Str) (p : Str × Str) (hp : p ∈ rset r k v) :
    p ∈ r ∨ p = (k, v) := by
  induction r with
  | nil =>
    simp only [rset, List.mem_singleton] at hp
    right; exact hp
  | cons q qs ih =>
    by_cases h : q.1 = k
    · simp only [rset, if_pos h] at hp
      rcases List.mem_cons.mp hp with h1 | h1
      · right; exact h1
      · left; exact List.mem_cons_of_mem _ h1
    · simp only [rset, if_neg h] at hp
      rcases List.mem_cons.mp hp with h1 | h1
      · left; rw [h1]; exact List.mem_cons_self _ _
      · rcases ih h1 with h2 | h2
        · left; exact List.mem_cons_of_mem _ h2
        · right; exact h2

theorem mem_buildRowAux (hs fs : List Str) (r0 : Row) (p : Str × Str)
    (hp : p ∈ buildRowAux hs fs r0) :
    p ∈ r0 ∨ (p.1 ∈ hs ∧ ∃ f, p.2 = trimStr f ∧ (f = [] ∨ f ∈ fs)) := by
  induction hs generalizing fs r0 with
  | nil => left; exact hp
  | cons h hs ih =>
    simp only [buildRowAux] at hp
    rcases ih (fs.drop 1) _ hp with h1 | ⟨hh, f, hf, hforig⟩
    · rcases mem_rset r0 h (trimStr (fs.headD [])) p h1 with h2 | h2
      · left; exact h2
      · right
        refine ⟨by rw [h2]; exact List.mem_cons_self _ _, fs.headD [], by rw [h2], ?_⟩
        cases fs with
        | nil => left; rfl
        | cons a t => right; simp
    · right
      refine ⟨List.mem_cons_of_mem _ hh, f, hf, ?_⟩
      rcases hforig with h2 | h2
      · left; exact h2
      · right; exact (List.drop_sublist 1 fs).subset h2

theorem rget_buildRowAux_self (hs : List Str) (r : Row) (r0 : Row) (k : Str) :
    rget (buildRowAux hs (hs.map (rget r)) r0) k =
      if k ∈ hs then trimStr (rget r k) else rget r0 k := by
  induction hs generalizing r0 with
  | nil => simp [buildRowAux]
  | cons h hs ih =>
    simp only [List.map_cons]
    show rget (buildRowAux hs (hs.map (rget r)) (rset r0 h (trimStr (rget r h)))) k = _
    rw [ih (rset r0 h (trimStr (rget r h)))]
    by_cases hk : k ∈ hs
    · rw [if_pos hk, if_pos (List.mem_cons_of_mem _ hk)]
    · rw [if_neg hk]
      by_cases hkh : k = h
      · subst hkh
        rw [if_pos (List.mem_cons_self _ _), rget_rset_self]
      · rw [if_neg (by simp [hkh, hk] : ¬ k ∈ h :: hs),
          rget_rset_ne _ _ _ _ (fun hh => hkh hh.symm)]

theorem mem_joinSep (sep : Char) (parts : List Str) (c : Char)
    (hc : c ∈ joinSep sep parts) : c = sep ∨ ∃ p ∈ parts, c ∈ p := by
  induction parts with
  | nil => simp [joinSep] at hc
  | cons a t ih =>
    cases t with
    | nil =>
      simp only [joinSep] at hc
      right; exact ⟨a, by simp, hc⟩
    | cons b t' =>
      simp only [joinSep] at hc
      rcases List.mem_append.mp hc with h | h
      · right; exact ⟨a, by simp, h⟩
      · rcases List.mem_cons.mp h with h' | h'
        · left; exact h'
        · rcases ih h' with h2 | ⟨p, hp, hcp⟩
          · left; exact h2
          · right; exact ⟨p, List.mem_cons_of_mem _ hp, hcp⟩

theorem mem_escQuotes (v : Str) (c : Char)
    (hc : c ∈ v.foldr (fun c acc => if c = '"' then '"' :: '"' :: acc else c :: acc) []) :
    c ∈ v ∨ c = '"' := by
  induction v with
  | nil => simp at hc
  | cons d ds ih =>
    simp only [List.foldr_cons] at hc
    by_cases hd : d = '"'
    · rw [if_pos hd] at hc
      rcases List.mem_cons.mp hc with h | h
      · right; exact h
      · rcases List.mem_cons.mp h with h' | h'
        · right; exact h'
        · rcases ih h' with h2 | h2
          · left; exact List.mem_cons_of_mem _ h2
          · right; exact h2
    · rw [if_neg hd] at hc
      rcases List.mem_cons.mp hc with h | h
      · left; rw [h]; exact List.mem_cons_self _ _
      · rcases ih h with h2 | h2
        · left; exact List.mem_cons_of_mem _ h2
        · right; exact h2

theorem mem_encodeField (v : Str) (c : Char) (hc : c ∈ encodeField v) :
    c ∈ v ∨ c = '"' := by
  unfold encodeField at hc
  split at hc
  · rcases List.mem_append.mp hc with h | h
    · rcases List.mem_cons.mp h with h1 | h1
      · right; exact h1
      · exact mem_escQuotes v c h1
    · right; simpa using h
  · left; exact hc

theorem mem_foldl_ensure (fs : List Str) (hs : List Str) (x : Str)
    (hx : x ∈ hs) :
    x ∈ List.foldl (fun hs f => if f ∈ hs then hs else hs ++ [f]) hs fs := by
  induction fs generalizing hs with
  | nil => exact hx
  | cons f fs ih =>
    simp only [List.foldl_cons]
    apply ih
    by_cases hf : f ∈ hs
    · rw [if_pos hf]; exact hx
    · rw [if_neg hf]; exact List.mem_append_left _ hx

theorem mem_ensuredHeaders_of_mem (headers : List Str) (x : Str)
    (hx : x ∈ headers) : x ∈ ensuredHeaders headers :=
  mem_foldl_ensure importantFields headers x hx

theorem mem_of_mem_ensuredHeaders (headers : List Str) (x : Str)
    (hx : x ∈ ensuredHeaders headers) : x ∈ headers ∨ x ∈ importantFields := by
  unfold ensuredHeaders at hx
  suffices h : ∀ fs hs : List Str,
      x ∈ List.foldl (fun hs f => if f ∈ hs then hs else hs ++ [f]) hs fs →
      x ∈ hs ∨ x ∈ fs by
    exact h importantFields headers hx
  intro fs
  induction fs with
  | nil => intro hs h; left; exact h
  | cons f fs ih =>
    intro hs h
    simp only [List.foldl_cons] at h
    rcases ih _ h with h1 | h1
    · by_cases hf : f ∈ hs
      · rw [if_pos hf] at h1; left; exact h1
      · rw [if_neg hf] at h1
        rcases List.mem_append.mp h1 with h2 | h2
        · left; exact h2
        · right; rw [List.mem_singleton.mp h2]; exact List.mem_cons_self _ _
    · right; exact List.mem_cons_of_mem _ h1

theorem importantFields_mem_ensuredHeaders (headers : List Str) (f : Str)
    (hf : f ∈ importantFields) : f ∈ ensuredHeaders headers := by
  unfold ensuredHeaders
  suffices h : ∀ fs hs : List Str, f ∈ fs →
      f ∈ List.foldl (fun hs g => if g ∈ hs then hs else hs ++ [g]) hs fs by
    exact h importantFields headers hf
  intro fs
  induction fs with
  | nil => intro hs h; exact absurd h (List.not_mem_nil f)
  | cons g fs ih =>
    intro hs h
    simp only [List.foldl_cons]
    rcases List.mem_cons.mp h with h1 | h1
    · subst h1
      apply mem_foldl_ensure
      by_cases hfs : f ∈ hs
      · rw [if_pos hfs]; exact hfs
      · rw [if_neg hfs]; exact List.mem_append_right _ (List.mem_singleton.mpr rfl)
    · exact ih _ h1

theorem two_le_length_of_two_mem {α : Type} (l : List α) (a b : α)
    (ha : a ∈ l) (hb : b ∈ l) (hne : a ≠ b) : 2 ≤ l.length := by
  cases l with
  | nil => exact absurd ha (List.not_mem_nil a)
  | cons x t =>
    cases t with
    | nil =>
      rw [List.mem_singleton] at ha hb
      exact absurd (ha.trans hb.symm) hne
    | cons y t' => simp [List.length_cons]

theorem sep_mem_joinSep (sep : Char) (parts : List Str)
    (h2 : 2 ≤ parts.length) : sep ∈ joinSep sep parts := by
  cases parts with
  | nil => simp at h2
  | cons a t =>
    cases t with
    | nil => simp at h2
    | cons b t' =>
      have hj : joinSep sep (a :: b :: t') = a ++ sep :: joinSep sep (b :: t') := by
        simp [joinSep]
      rw [hj]
      exact List.mem_append_right _ (List.mem_cons_self _ _)

theorem mem_splitFieldsAux (cs : List Char) (inQ : Bool) (field : Str)
    (acc : List Str) (f : Str) (hf : f ∈ splitFieldsAux cs inQ field acc)
    (c : Char) (hc : c ∈ f) :
    c ∈ cs ∨ c ∈ field ∨ ∃ g ∈ acc, c ∈ g := by
  induction cs generalizing inQ field acc with
  | nil =>
    simp only [splitFieldsAux] at hf
    rcases List.mem_append.mp hf with h | h
    · right; right; exact ⟨f, h, hc⟩
    · rw [List.mem_singleton.mp h] at hc
      right; left; exact hc
  | cons d ds ih =>
    by_cases hd : d = '"'
    · rw [splitFieldsAux, if_pos hd] at hf
      rcases ih _ _ _ hf with h | h
      · left; exact List.mem_cons_of_mem _ h
      · right; exact h
    · by_cases hdc : d = ',' ∧ inQ = false
      · rw [splitFieldsAux, if_neg hd, if_pos hdc] at hf
        rcases ih _ _ _ hf with h | h | ⟨g, hg, hcg⟩
        · left; exact List.mem_cons_of_mem _ h
        · exact absurd h (List.not_mem_nil c)
        · rcases List.mem_append.mp hg with h1 | h1
          · right; right; exact ⟨g, h1, hcg⟩
          · rw [List.mem_singleton.mp h1] at hcg
            right; left; exact hcg
      · rw [splitFieldsAux, if_neg hd, if_neg hdc] at hf
        rcases ih _ _ _ hf with h | h | h
        · left; exact List.mem_cons_of_mem _ h
        · rcases List.mem_append.mp h with h1 | h1
          · right; left; exact h1
          · left; rw [List.mem_singleton.mp h1]; exact List.mem_cons_self _ _
        · right; right; exact h

theorem mem_of_mem_splitFields (line : Str) (f : Str)
    (hf : f ∈ splitFields line) (c : Char) (hc : c ∈ f) : c ∈ line := by
  rcases mem_splitFieldsAux line false [] [] f hf c hc with h | h | ⟨g, hg, _⟩
  · exact h
  · exact absurd h (List.not_mem_nil c)
  · exact absurd hg (List.not_mem_nil g)

/-- Invariant of parsed headers: trimmed, comma-free and newline-free. -/
theorem parseCSV_headers_inv (s : Str) (h : Str) (hh : h ∈ (parseCSV s).1) :
    trimStr h = h ∧ ',' ∉ h ∧ '\n' ∉ h := by
  cases hlines : csvLines s with
  | nil => unfold parseCSV at hh; rw [hlines] at hh; simp at hh
  | cons l0 rest =>
    have h1 : (parseCSV s).1 = parseHeaders l0 := by unfold parseCSV; rw [hlines]
    rw [h1, parseHeaders] at hh
    obtain ⟨piece, hpiece, rfl⟩ := List.mem_map.mp hh
    refine ⟨trimStr_idem piece, ?_, ?_⟩
    · intro hmem
      exact not_mem_of_mem_splitOnChar ',' l0 piece hpiece (mem_trimStr piece ',' hmem)
    · intro hmem
      have hcl : '\n' ∈ l0 :=
        mem_of_mem_splitOnChar ',' l0 piece hpiece _ (mem_trimStr piece _ hmem)
      have hl0 : l0 ∈ splitOnChar '\n' s := by
        have hm : l0 ∈ csvLines s := by rw [hlines]; exact List.mem_cons_self _ _
        exact List.mem_of_mem_filter hm
      exact not_mem_of_mem_splitOnChar '\n' s l0 hl0 hcl

/-- Invariant of parsed rows: keys among the headers, values trimmed and
newline-free. -/
theorem parseCSV_rows_inv (s : Str) (row : Row) (hrow : row ∈ (parseCSV s).2)
    (p : Str × Str) (hp : p ∈ row) :
    p.1 ∈ (parseCSV s).1 ∧ trimStr p.2 = p.2 ∧ '\n' ∉ p.2 := by
  cases hlines : csvLines s with
  | nil => unfold parseCSV at hrow; rw [hlines] at hrow; simp at hrow
  | cons l0 rest =>
    have h1 : (parseCSV s).1 = parseHeaders l0 := by unfold parseCSV; rw [hlines]
    have h2 : (parseCSV s).2 = rest.map (fun line =>
        buildRow (parseHeaders l0) (parseRowFields (parseHeaders l0) line)) := by
      unfold parseCSV; rw [hlines]
    rw [h2] at hrow
    obtain ⟨line, hline, rfl⟩ := List.mem_map.mp hrow
    rcases mem_buildRowAux (parseHeaders l0)
        (parseRowFields (parseHeaders l0) line) [] p hp with habs | ⟨hkey, f, hf, hforig⟩
    · exact absurd habs (List.not_mem_nil p)
    refine ⟨by rw [h1]; exact hkey, by rw [hf]; exact trimStr_idem f, ?_⟩
    intro hmem
    rw [hf] at hmem
    have hcf : '\n' ∈ f := mem_trimStr f _ hmem
    rcases hforig with rfl | hfmem
    · simp at hcf
    · have hcline : '\n' ∈ line := by
        simp only [parseRowFields] at hfmem
        split at hfmem
        · exact mem_of_mem_splitOnChar ',' line f hfmem _ hcf
        · exact mem_of_mem_splitFields line f hfmem _ hcf
      have hl : line ∈ splitOnChar '\n' s := by
        have hm : line ∈ csvLines s := by
          rw [hlines]; exact List.mem_cons_of_mem _ hline
        exact List.mem_of_mem_filter hm
      exact not_mem_of_mem_splitOnChar '\n' s line hl hcline

theorem map_trim_id (l : List Str) (h : ∀ x ∈ l, trimStr x = x) :
    l.map trimStr = l := by
  induction l with
  | nil => rfl
  | cons a t ih =>
    rw [List.map_cons, h a (List.mem_cons_self _ _),
      ih (fun x hx => h x (List.mem_cons_of_mem _ hx))]

theorem rget_no_quote (row : Row) (k : Str)
    (hR : ∀ p ∈ row, '"' ∉ p.2) : '"' ∉ rget row k := by
  rcases rget_cases row k with h | ⟨p, hp, _, hv⟩
  · rw [h]; simp
  · rw [hv]; exact hR p hp

theorem rget_no_newline (row : Row) (k : Str)
    (hR : ∀ p ∈ row, '\n' ∉ p.2) : '\n' ∉ rget row k := by
  rcases rget_cases row k with h | ⟨p, hp, _, hv⟩
  · rw [h]; simp
  · rw [hv]; exact hR p hp

theorem rget_trim_fixed (row : Row) (k : Str)
    (hR : ∀ p ∈ row, trimStr p.2 = p.2) : trimStr (rget row k) = rget row k := by
  rcases rget_cases row k with h | ⟨p, hp, _, hv⟩
  · rw [h]; rfl
  · rw [hv]; exact hR p hp

theorem ensuredHeaders_inv (hs : List Str)
    (hH : ∀ h ∈ hs, trimStr h = h ∧ ',' ∉ h ∧ '\n' ∉ h) :
    ∀ h ∈ ensuredHeaders hs, trimStr h = h ∧ ',' ∉ h ∧ '\n' ∉ h := by
  intro h hmem
  rcases mem_of_mem_ensuredHeaders hs h hmem with h1 | h1
  · exact hH h h1
  · rcases (by simpa [importantFields] using h1 :
        h = otherDmNameKey ∨ h = otherDmEmailKey ∨ h = otherDmTitleKey) with
      rfl | rfl | rfl
    · exact ⟨by decide, by decide, by decide⟩
    · exact ⟨by decide, by decide, by decide⟩
    · exact ⟨by decide, by decide, by decide⟩

theorem ensuredHeaders_two_le (hs : List Str) : 2 ≤ (ensuredHeaders hs).length :=
  two_le_length_of_two_mem _ otherDmNameKey otherDmEmailKey
    (importantFields_mem_ensuredHeaders hs _ (by simp [importantFields]))
    (importantFields_mem_ensuredHeaders hs _ (by simp [importantFields]))
    (by decide)

theorem headerLine_no_newline (eh : List Str)
    (hehn : ∀ h ∈ eh, '\n' ∉ h) : '\n' ∉ joinSep ',' eh := by
  intro hmem
  rcases mem_joinSep ',' _ _ hmem with h | ⟨part, hpart, hcp⟩
  · exact absurd h (by decide)
  · exact hehn part hpart hcp

theorem rowLine_no_newline (eh : List Str) (row : Row)
    (hRn : ∀ p ∈ row, '\n' ∉ p.2) :
    '\n' ∉ joinSep ',' (eh.map (fun h => encodeField (rget row h))) := by
  intro hmem
  rcases mem_joinSep ',' _ _ hmem with h | ⟨part, hpart, hcp⟩
  · exact absurd h (by decide)
  · obtain ⟨h, _, rfl⟩ := List.mem_map.mp hpart
    rcases mem_encodeField _ _ hcp with h1 | h1
    · exact rget_no_newline row h hRn h1
    · exact absurd h1 (by decide)

/-- The serialized text splits back into exactly the header line and one
line per row. -/
theorem csvLines_dataToCSV (hs : List Str) (ds : List Row)
    (hH : ∀ h ∈ hs, trimStr h = h ∧ ',' ∉ h ∧ '\n' ∉ h)
    (hRn : ∀ row ∈ ds, ∀ p ∈ row, '\n' ∉ p.2) :
    csvLines (dataToCSV hs ds) =
      joinSep ',' (ensuredHeaders hs) ::
        ds.map (fun row =>
          joinSep ',' ((ensuredHeaders hs).map (fun h => encodeField (rget row h)))) := by
  have hehinv := ensuredHeaders_inv hs hH
  have h2 := ensuredHeaders_two_le hs
  have hnonl : ∀ l ∈ joinSep ',' (ensuredHeaders hs) ::
      ds.map (fun row =>
        joinSep ',' ((ensuredHeaders hs).map (fun h => encodeField (rget row h)))),
      '\n' ∉ l := by
    intro l hl
    rcases List.mem_cons.mp hl with rfl | hl
    · exact headerLine_no_newline _ (fun h hh => (hehinv h hh).2.2)
    · obtain ⟨row, hrow, rfl⟩ := List.mem_map.mp hl
      exact rowLine_no_newline _ row (fun p hp => hRn row hrow p hp)
  have hsplit : splitOnChar '\n' (dataToCSV hs ds) =
      joinSep ',' (ensuredHeaders hs) ::
        ds.map (fun row =>
          joinSep ',' ((ensuredHeaders hs).map (fun h => encodeField (rget row h)))) := by
    rw [dataToCSV]
    exact splitOnChar_joinSep '\n' _ (by simp) hnonl
  rw [csvLines, hsplit]
  rw [List.filter_eq_self.mpr]
  intro l hl
  rcases List.mem_cons.mp hl with rfl | hl
  · exact decide_eq_true
      (trimStr_ne_nil_of_mem _ ',' (sep_mem_joinSep ',' _ h2) (by decide))
  · obtain ⟨row, _, rfl⟩ := List.mem_map.mp hl
    refine decide_eq_true
      (trimStr_ne_nil_of_mem _ ',' (sep_mem_joinSep ',' _ ?_) (by decide))
    rw [List.length_map]
    exact h2

theorem map_congr_mem {α β : Type} (l : List α) (f g : α → β)
    (h : ∀ a ∈ l, f a = g a) : l.map f = l.map g := by
  induction l with
  | nil => rfl
  | cons a t ih =>
    rw [List.map_cons, List.map_cons, h a (List.mem_cons_self _ _),
      ih (fun x hx => h x (List.mem_cons_of_mem _ hx))]

/-- Serializing a table whose headers and values satisfy the parse-output
invariants (plus quote-freedom of values) and re-parsing it recovers the
ensured header list and, pointwise for every row and key, the original
field values. -/
theorem dataToCSV_parseCSV_general (hs : List Str) (ds : List Row)
    (hH : ∀ h ∈ hs, trimStr h = h ∧ ',' ∉ h ∧ '\n' ∉ h)
    (hR : ∀ row ∈ ds, ∀ p ∈ row,
      p.1 ∈ hs ∧ trimStr p.2 = p.2 ∧ '\n' ∉ p.2 ∧ '"' ∉ p.2) :
    (parseCSV (dataToCSV hs ds)).1 = ensuredHeaders hs ∧
    (parseCSV (dataToCSV hs ds)).2.length = ds.length ∧
    ∀ i : Nat, ∀ k : Str,
      rget ((parseCSV (dataToCSV hs ds)).2.getD i []) k =
        rget (ds.getD i []) k := by
  have hlines := csvLines_dataToCSV hs ds hH
    (fun row hrow p hp => (hR row hrow p hp).2.2.1)
  have hehinv := ensuredHeaders_inv hs hH
  have h2 := ensuredHeaders_two_le hs
  have hehne : ensuredHeaders hs ≠ [] := by
    intro h; rw [h] at h2; simp at h2
  have hheaders : parseHeaders (joinSep ',' (ensuredHeaders hs)) =
      ensuredHeaders hs := by
    rw [parseHeaders,
      splitOnChar_joinSep ',' _ hehne (fun p hp => (hehinv p hp).2.1)]
    exact map_trim_id _ (fun x hx => (hehinv x hx).1)
  have hp1 : (parseCSV (dataToCSV hs ds)).1 = ensuredHeaders hs := by
    unfold parseCSV
    rw [hlines]
    exact hheaders
  have hrowfields : ∀ row ∈ ds,
      parseRowFields (ensuredHeaders hs)
        (joinSep ',' ((ensuredHeaders hs).map (fun h => encodeField (rget row h)))) =
      (ensuredHeaders hs).map (rget row) := by
    intro row hrowm
    have hq : ∀ v ∈ (ensuredHeaders hs).map (rget row), '"' ∉ v := by
      intro v hv
      obtain ⟨h, _, rfl⟩ := List.mem_map.mp hv
      exact rget_no_quote row h (fun p hp => (hR row hrowm p hp).2.2.2)
    have hmap : (ensuredHeaders hs).map (fun h => encodeField (rget row h)) =
        ((ensuredHeaders hs).map (rget row)).map encodeField := by
      rw [List.map_map]
      rfl
    simp only [parseRowFields]
    rw [hmap, splitFields_join ((ensuredHeaders hs).map (rget row))
      (by simp [hehne]) hq]
    rw [if_neg (by simp)]
  have hp2eq : (parseCSV (dataToCSV hs ds)).2 =
      ds.map (fun row =>
        buildRow (ensuredHeaders hs) ((ensuredHeaders hs).map (rget row))) := by
    unfold parseCSV
    rw [hlines]
    show (ds.map (fun row =>
        joinSep ',' ((ensuredHeaders hs).map (fun h => encodeField (rget row h))))).map
        (fun line => buildRow (parseHeaders (joinSep ',' (ensuredHeaders hs)))
          (parseRowFields (parseHeaders (joinSep ',' (ensuredHeaders hs))) line)) = _
    rw [hheaders, List.map_map]
    apply map_congr_mem
    intro row hrowm
    show buildRow (ensuredHeaders hs)
      (parseRowFields (ensuredHeaders hs)
        (joinSep ',' ((ensuredHeaders hs).map (fun h => encodeField (rget row h))))) = _
    rw [hrowfields row hrowm]
  refine ⟨hp1, by rw [hp2eq]; simp, ?_⟩
  intro i k
  by_cases hi : i < ds.length
  · rw [hp2eq, getD_map_of_lt _ _ i [] [] hi]
    rw [buildRow, rget_buildRowAux_self]
    have hrowmem : ds.getD i [] ∈ ds := by
      rw [List.getD_eq_getElem _ _ hi]
      exact List.getElem_mem _
    by_cases hk : k ∈ ensuredHeaders hs
    · rw [if_pos hk]
      exact rget_trim_fixed _ k (fun p hp => (hR _ hrowmem p hp).2.1)
    · rw [if_neg hk]
      have hnil : rget (ds.getD i []) k = [] :=
        rget_eq_nil_of_not_key _ k (fun p hp hpk =>
          hk (hpk ▸ mem_ensuredHeaders_of_mem hs p.1 (hR _ hrowmem p hp).1))
      rw [hnil]
      rfl
  · have hlen : (parseCSV (dataToCSV hs ds)).2.length = ds.length := by
      rw [hp2eq]; simp
    rw [List.getD_eq_default _ _ (by omega), List.getD_eq_default _ _ (by omega)]

/-- C5 counterexample: the input `"a,b\nx\"y"` has a data line whose
quote-aware field count (1) mismatches the header count (2), so the naive
fallback keeps the raw field `x"y` — a parsed value CONTAINING a double
quote.  Serializing escapes it as `"x""y"`, but re-parsing drops the
quotes (the scanner has no doubled-quote unescaping), yielding `xy`: the
records are NOT the same after a round trip. -/
theorem csv_round_trip_counterexample :
    rget ((parseCSV (strOf "a,b\nx\"y")).2.getD 0 []) (strOf "a") =
      strOf "x\"y" ∧
    rget ((parseCSV (dataToCSV (parseCSV (strOf "a,b\nx\"y")).1
        (parseCSV (strOf "a,b\nx\"y")).2)).2.getD 0 []) (strOf "a") =
      strOf "xy" ∧
    rget ((parseCSV (dataToCSV (parseCSV (strOf "a,b\nx\"y")).1
        (parseCSV (strOf "a,b\nx\"y")).2)).2.getD 0 []) (strOf "a") ≠
      rget ((parseCSV (strOf "a,b\nx\"y")).2.getD 0 []) (strOf "a") := by
  refine ⟨by decide, by decide, by decide⟩

/-- C5 (amended): for every table obtained from `parseCSV` in which no
field value contains a double quote, serializing with `dataToCSV` and
re-parsing yields the same records up to field reordering and the forced
placeholder columns `other_dm_name`/`other_dm_email`/`other_dm_title`:
the reparsed header list is the ensured header list, the row count is
preserved, and every row agrees with the original on every key; moreover
a quote-free value containing a comma is serialized wrapped in double
quotes (with internal quotes doubled in general, by the definition of
`encodeField`). -/
theorem csv_round_trip (s : Str)
    (hq : ∀ row ∈ (parseCSV s).2, ∀ p ∈ row, '"' ∉ p.2) :
    (parseCSV (dataToCSV (parseCSV s).1 (parseCSV s).2)).1 =
      ensuredHeaders (parseCSV s).1 ∧
    (parseCSV (dataToCSV (parseCSV s).1 (parseCSV s).2)).2.length =
      (parseCSV s).2.length ∧
    (∀ i : Nat, ∀ k : Str,
      rget ((parseCSV (dataToCSV (parseCSV s).1 (parseCSV s).2)).2.getD i []) k =
        rget ((parseCSV s).2.getD i []) k) ∧
    (∀ v : Str, '"' ∉ v → containsSub v (strOf ",") = true →
      encodeField v = ('"' :: v) ++ ['"']) := by
  have hH := parseCSV_headers_inv s
  have hR : ∀ row ∈ (parseCSV s).2, ∀ p ∈ row,
      p.1 ∈ (parseCSV s).1 ∧ trimStr p.2 = p.2 ∧ '\n' ∉ p.2 ∧ '"' ∉ p.2 := by
    intro row hrow p hp
    obtain ⟨ha, hb, hc⟩ := parseCSV_rows_inv s row hrow p hp
    exact ⟨ha, hb, hc, hq row hrow p hp⟩
  obtain ⟨g1, g2, g3⟩ :=
    dataToCSV_parseCSV_general (parseCSV s).1 (parseCSV s).2
      (fun h hh => hH h hh) hR
  refine ⟨g1, g2, g3, ?_⟩
  intro v hv hc
  rw [encodeField, if_pos (by simp [hc]), encode_foldr_no_quote v hv]

/-- C5 witness: a concrete input with a quoted, comma-containing field
round-trips record-for-record. -/
theorem csv_round_trip_witness :
    (∀ row ∈ (parseCSV (strOf "a,b\n\"x,y\",z")).2, ∀ p ∈ row, '"' ∉ p.2) ∧
    rget ((parseCSV (dataToCSV (parseCSV (strOf "a,b\n\"x,y\",z")).1
        (parseCSV (strOf "a,b\n\"x,y\",z")).2)).2.getD 0 []) (strOf "a") =
      rget ((parseCSV (strOf "a,b\n\"x,y\",z")).2.getD 0 []) (strOf "a") :=
  ⟨by decide,
    (csv_round_trip (strOf "a,b\n\"x,y\",z") (by decide)).2.2.1 0 (strOf "a")⟩

/-! ### C6: the field normalizers `cleanWebsiteUrl` and `cleanCompanyName` -/

/-- The anchored tail `([^\/]+\.[a-z]+)(?:\/|$)` of the domain regex of
`cleanWebsiteUrl` (csvProcessing.ts line 176), matched at the start of `cs`
with the backtracking-greedy semantics of JavaScript regexes: `[^\/]+` tries
the longest split first, so the candidate positions `k` of the mandatory dot
are scanned from high to low inside the slash-free prefix; `[a-z]+` (under
`/i`) then takes the maximal ASCII-letter run, which cannot backtrack because
a shorter run would be followed by a letter, failing `(?:\/|$)`.  Returns the
text of the capture group.  `coreMatchStep cs k` is the attempt with the dot
at position `k`: `cs.drop (k+1)` is the text after the dot, its maximal
letter run is the `[a-z]+` part, and the remainder after that run must be
empty or start with a slash. -/
def coreMatchStep (cs : Str) (k : Nat) : Option Str :=
  if k = 0 then none
  else if cs.getD k ' ' = '.' then
    if (cs.drop (k + 1)).takeWhile isAsciiAlpha = [] then none
    else if (cs.drop (k + 1)).drop
        (((cs.drop (k + 1)).takeWhile isAsciiAlpha).length) = [] then
      some (cs.take k ++ '.' :: (cs.drop (k + 1)).takeWhile isAsciiAlpha)
    else if ((cs.drop (k + 1)).drop
        (((cs.drop (k + 1)).takeWhile isAsciiAlpha).length)).headD ' ' = '/' then
      some (cs.take k ++ '.' :: (cs.drop (k + 1)).takeWhile isAsciiAlpha)
    else none
  else none

def coreMatch (cs : Str) : Option Str :=
  (List.range ((cs.takeWhile (fun ch => ch ≠ '/')).length)).reverse.findSome?
    (coreMatchStep cs)

/-- Case-insensitive prefix test, modeling a literal regex fragment under the
`/i` flag. -/
def startsWithCI (s pat : Str) : Bool :=
  startsWithStr (lowerStr s) (lowerStr pat)

/-- The optional group `(?:www\.)?` of the domain regex followed by the rest
of the pattern: being greedy, the group first tries to consume `www.` and
only on failure of the remainder is the empty alternative tried. -/
def wwwOpt (cs : Str) : Option Str :=
  (if startsWithCI cs (strOf "www.") then coreMatch (cs.drop 4) else none) <|>
    coreMatch cs

/-- The domain regex `(?:https?:\/\/)?(?:www\.)?([^\/]+\.[a-z]+)(?:\/|$)`
anchored at the start of `cs`: the optional protocol group tries `https://`
first, then `http://` (as `https?` backtracks on the optional `s`), then the
empty alternative, each continuing with the `www.` stage. -/
def matchAt (cs : Str) : Option Str :=
  (if startsWithCI cs (strOf "https://") then wwwOpt (cs.drop 8) else none) <|>
    ((if startsWithCI cs (strOf "http://") then wwwOpt (cs.drop 7) else none) <|>
      wwwOpt cs)

/-- `url.match(domainRegex)` (line 176): unanchored search, the leftmost
starting position that matches wins. -/
def findDomainMatch : Str → Option Str
  | [] => matchAt []
  | c :: cs => matchAt (c :: cs) <|> findDomainMatch cs

/-- Shallow model of `new URL(u).hostname` (line 186) for the inputs reaching
it in `cleanWebsiteUrl`, which always carry an `http://` / `https://` scheme
prefix: the authority part runs to the first `/`, `?`, `#` or `\`, user
information up to the last `@` is dropped, a `:port` suffix is dropped and
the host is lower-cased; an empty host, or one containing a space, makes the
constructor throw, modeled as `none`. -/
def urlHostname (u : Str) : Option Str :=
  let afterScheme :=
    if startsWithCI u (strOf "https://") then u.drop 8
    else if startsWithCI u (strOf "http://") then u.drop 7
    else u
  let auth := afterScheme.takeWhile
    (fun ch => ch ≠ '/' && ch ≠ '?' && ch ≠ '#' && ch ≠ '\\')
  let host :=
    if auth.contains '@' then (auth.reverse.takeWhile (fun ch => ch ≠ '@')).reverse
    else auth
  let hostname := lowerStr (host.takeWhile (fun ch => ch ≠ ':'))
  if hostname = [] || hostname.contains ' ' then none else some hostname

/-- `.replace(/^www\./i, '')` (line 188). -/
def stripWwwPrefix (s : Str) : Str :=
  if startsWithCI s (strOf "www.") then s.drop 4 else s

/-- `.replace(/\/$/, '')` (lines 189 and 194). -/
def stripTrailingSlash (s : Str) : Str :=
  if endsWithStr s (strOf "/") then s.take (s.length - 1) else s

/-- The capture `([^\/]+)` of the catch-branch regex of `cleanWebsiteUrl`
(line 193), anchored at the start of `cs`: a non-empty maximal slash-free
run. -/
def fallbackCore (cs : Str) : Option Str :=
  let v := cs.takeWhile (fun ch => ch ≠ '/')
  if v = [] then none else some v

/-- Optional `(?:www\.)?` stage of the catch-branch regex. -/
def fallbackWww (cs : Str) : Option Str :=
  (if startsWithCI cs (strOf "www.") then fallbackCore (cs.drop 4) else none) <|>
    fallbackCore cs

/-- The catch-branch regex `(?:https?:\/\/)?(?:www\.)?([^\/]+)` anchored at
the start of `cs`. -/
def fallbackAt (cs : Str) : Option Str :=
  (if startsWithCI cs (strOf "https://") then fallbackWww (cs.drop 8) else none) <|>
    ((if startsWithCI cs (strOf "http://") then fallbackWww (cs.drop 7) else none) <|>
      fallbackWww cs)

/-- `url.match(catchRegex)` (line 193): leftmost match. -/
def findFallbackMatch : Str → Option Str
  | [] => fallbackAt []
  | c :: cs => fallbackAt (c :: cs) <|> findFallbackMatch cs

/-- `cleanWebsiteUrl` (csvProcessing.ts lines 171-196).  The `new URL`
constructor is modeled by `urlHostname`, whose `none` result is the thrown
exception that lands the code in the catch branch. -/
def cleanWebsiteUrl (url : Str) : Str :=
  if url = [] then []
  else
    match findDomainMatch url with
    | some c => lowerStr c
    | none =>
      let url2 :=
        if startsWithCI url (strOf "https://") || startsWithCI url (strOf "http://")
        then url
        else strOf "https://" ++ url
      match urlHostname url2 with
      | some h => lowerStr (stripTrailingSlash (stripWwwPrefix h))
      | none =>
        match findFallbackMatch url with
        | some m => lowerStr (stripTrailingSlash m)
        | none => lowerStr url

/-- The word-character class `\w` deciding the `\b` boundary in `\bco$`. -/
def isWordChar (c : Char) : Bool :=
  isAsciiAlpha c || ('0' ≤ c && c ≤ '9') || c = '_'

/-- Locates the leftmost match of `\([^)]*\)` inside `s`: the first `(` that
is followed by a later `)` starts it (a `(` with no later `)` admits no match
at any position, since `[^)]*` cannot cross a `)`), and it extends to the
first `)` after that `(`.  Returns the text before and after the match. -/
def parenSplit : Str → Option (Str × Str)
  | [] => none
  | c :: cs =>
    if c = '(' then
      if cs.contains ')' then
        some ([], (cs.dropWhile (fun ch => ch ≠ ')')).drop 1)
      else none
    else
      match parenSplit cs with
      | some (pre, post) => some (c :: pre, post)
      | none => none

/-- One match of `\s*\([^)]*\)\s*` (line 207): the parenthesized core located
by `parenSplit`, widened left over the contiguous whitespace run before the
`(` and right over the whitespace after the `)`. -/
def stripParensOnce (s : Str) : Option (Str × Str) :=
  match parenSplit s with
  | some (pre, post) =>
    some ((pre.reverse.dropWhile isWsChar).reverse, post.dropWhile isWsChar)
  | none => none

/-- `.replace(/\s*\([^)]*\)\s*/g, ' ')` (line 207): the global replacement
resumes after each match; every match consumes at least two characters, so
`s.length` rounds of fuel always suffice. -/
def stripParensFuel : Nat → Str → Str
  | 0, s => s
  | fuel + 1, s =>
    match stripParensOnce s with
    | some (pre, post) => pre ++ ' ' :: stripParensFuel fuel post
    | none => s

/-- The bracket-removal step of `cleanCompanyName`. -/
def stripParens (s : Str) : Str := stripParensFuel s.length s

/-- `.replace(/ xxx\.?$/i, '')` for a fixed lowercase word `xxx` (lines
208-210): the greedy `\.?` first tries the dotted suffix; the input is
already lower-cased when these replacements run, so `/i` is inert. -/
def stripEndDotOpt (suf : Str) (s : Str) : Str :=
  if endsWithStr s (suf ++ strOf ".") then s.take (s.length - (suf.length + 1))
  else if endsWithStr s suf then s.take (s.length - suf.length)
  else s

/-- `.replace(/ xxx$/i, '')` for a fixed lowercase word `xxx` (lines 211-214
and 218). -/
def stripEnd (suf : Str) (s : Str) : Str :=
  if endsWithStr s suf then s.take (s.length - suf.length) else s

/-- `.replace(/\bco$/i, '')` (line 219): a trailing `co` is removed when a
word boundary precedes it, i.e. when the string is exactly `co` or the
character before the `c` is not a word character. -/
def stripCoEnd (s : Str) : Str :=
  if endsWithStr s (strOf "co") then
    if s.length ≤ 2 then s.take (s.length - 2)
    else if isWordChar (s.getD (s.length - 3) ' ') then s
    else s.take (s.length - 2)
  else s

/-- `.replace(/\.[a-z]+$/i, '')` (line 220): the only possible match is the
maximal trailing letter run together with the dot right before it. -/
def stripDotAlphaEnd (s : Str) : Str :=
  let run := s.reverse.takeWhile isAsciiAlpha
  if run = [] then s
  else if s.reverse.getD run.length ' ' = '.' then
    s.take (s.length - (run.length + 1))
  else s

/-- `.replace(/\.$/g, '')` (line 221). -/
def stripDotEnd (s : Str) : Str :=
  if endsWithStr s (strOf ".") then s.take (s.length - 1) else s

/-- `.replace(/\&$/g, '')` (line 222). -/
def stripAmpEnd (s : Str) : Str :=
  if endsWithStr s (strOf "&") then s.take (s.length - 1) else s

/-- `.replace(/[^ -~]/g, '')` (line 223): keep only printable ASCII. -/
def filterPrintable (s : Str) : Str :=
  s.filter (fun c => ' ' ≤ c && c ≤ '~')

/-- The apostrophe character (U+0027). -/
def aposChar : Char := Char.ofNat 39

/-- `.replace(/s'/g, "'s")` (line 224): global replacement of the two-character
pattern, resuming after each match (the inserted text is not rescanned). -/
def replaceSApos : Str → Str
  | [] => []
  | [c] => [c]
  | c :: c2 :: cs =>
    if c = 's' && c2 = aposChar then aposChar :: 's' :: replaceSApos cs
    else c :: replaceSApos (c2 :: cs)

/-- `.replace(/\s*[\|:]\s*.*/g, '')` (line 225): at this point of the chain
the string contains no newline (the printable-ASCII filter already ran), so
the single match spans from the whitespace run preceding the first `|` or `:`
to the end of the string. -/
def stripPipeColon (s : Str) : Str :=
  let pre := s.takeWhile (fun c => c ≠ '|' && c ≠ ':')
  if pre.length = s.length then s
  else (pre.reverse.dropWhile isWsChar).reverse

/-- `.replace(/\s+/g, ' ')` (line 227): every maximal whitespace run becomes
one space; the flag records whether the previous character was whitespace,
i.e. whether the current run has already emitted its space. -/
def collapseWsAux : Bool → Str → Str
  | _, [] => []
  | prevWs, c :: cs =>
    if isWsChar c then
      if prevWs then collapseWsAux true cs
      else ' ' :: collapseWsAux true cs
    else c :: collapseWsAux false cs

/-- `.replace(/\s+/g, ' ')` (line 227). -/
def collapseWs (s : Str) : Str := collapseWsAux false s

/-- `word.charAt(0).toUpperCase() + word.slice(1)` (line 229); on the empty
word both pieces are empty. -/
def titleWord : Str → Str
  | [] => []
  | c :: cs => charUpper c :: cs

/-- `cleanCompanyName` (csvProcessing.ts lines 201-231): lower-case the
input, then the fixed chain of replacements, trim, whitespace collapse and
per-word title-casing. -/
def cleanCompanyName (name : Str) : Str :=
  if name = [] then []
  else
    let s := lowerStr name
    let s := stripParens s
    let s := stripEndDotOpt (strOf " ltd") s
    let s := stripEndDotOpt (strOf " llc") s
    let s := stripEndDotOpt (strOf " inc") s
    let s := stripEnd (strOf " gmbh") s
    let s := stripEnd (strOf " pvt") s
    let s := stripEnd (strOf " private") s
    let s := stripEnd (strOf " limited") s
    let s := s.filter (fun c => c ≠ '®')
    let s := s.filter (fun c => c ≠ '™')
    let s := s.filter (fun c => c ≠ ',')
    let s := stripEnd (strOf " technologies") s
    let s := stripCoEnd s
    let s := stripDotAlphaEnd s
    let s := stripDotEnd s
    let s := stripAmpEnd s
    let s := filterPrintable s
    let s := replaceSApos s
    let s := stripPipeColon s
    let s := trimStr s
    let s := collapseWs s
    joinSep ' ' ((splitOnChar ' ' s).map titleWord)

theorem charLower_shape (c : Char) :
    charLower c = c ∨
      (isAsciiAlpha (charLower c) = true ∧
        ¬('A' ≤ charLower c ∧ charLower c ≤ 'Z') ∧
        charLower c ≠ '/' ∧ charLower c ≠ '.') := by
  unfold charLower
  cases hf : lowerPairs.find? (fun p => p.1 = c) with
  | none => left; rfl
  | some p =>
    simp only []
    have hmem := List.mem_of_find?_eq_some hf
    have hpc := List.find?_some hf
    fin_cases hmem <;>
      (simp only [] at hpc; cases of_decide_eq_true hpc; right; decide)

theorem charLower_eq_self_of_not_upper (c : Char)
    (h : ¬('A' ≤ c ∧ c ≤ 'Z')) : charLower c = c := by
  unfold charLower
  cases hf : lowerPairs.find? (fun p => p.1 = c) with
  | none => rfl
  | some p =>
    exfalso
    have hmem := List.mem_of_find?_eq_some hf
    have hpc := List.find?_some hf
    fin_cases hmem <;>
      (simp only [] at hpc; cases of_decide_eq_true hpc; exact h (by decide))

theorem charLower_idem (c : Char) : charLower (charLower c) = charLower c := by
  rcases charLower_shape c with h | ⟨-, hnu, -, -⟩
  · rw [h]; exact h
  · exact charLower_eq_self_of_not_upper _ hnu

theorem charLower_eq_slash (c : Char) (h : charLower c = '/') : c = '/' := by
  rcases charLower_shape c with hfix | ⟨-, -, hne, -⟩
  · rw [← hfix]; exact h
  · exact absurd h hne

theorem charLower_alpha (c : Char) (h : isAsciiAlpha c = true) :
    isAsciiAlpha (charLower c) = true := by
  rcases charLower_shape c with hfix | ⟨ha, -, -, -⟩
  · rw [hfix]; exact h
  · exact ha

theorem isAsciiAlpha_ne_dot_slash (c : Char) (h : isAsciiAlpha c = true) :
    c ≠ '.' ∧ c ≠ '/' := by
  constructor <;> intro hh <;> subst hh <;> exact absurd h (by decide)

theorem lowerStr_idem (s : Str) : lowerStr (lowerStr s) = lowerStr s := by
  simp only [lowerStr, List.map_map]
  exact List.map_congr_left fun c _ => charLower_idem c

theorem slash_not_mem_lowerStr (s : Str) (h : '/' ∉ s) : '/' ∉ lowerStr s := by
  intro hmem
  obtain ⟨b, hb, hlb⟩ := List.mem_map.mp hmem
  exact h (charLower_eq_slash b hlb ▸ hb)

theorem takeWhile_eq_self_of_all (p : Char → Bool) (l : List Char)
    (h : ∀ a ∈ l, p a = true) : l.takeWhile p = l :=
  List.takeWhile_eq_self_iff.mpr h

theorem findSome_reverse_range {α : Type} (f : Nat → Option α) (r : α) :
    ∀ n j, j < n → f j = some r → (∀ k, j < k → k < n → f k = none) →
      ((List.range n).reverse.findSome? f) = some r := by
  intro n
  induction n with
  | zero => intro j hj _ _; omega
  | succ n ih =>
    intro j hj hfj hnone
    rw [List.range_succ]
    simp only [List.reverse_append, List.reverse_singleton, List.singleton_append,
      List.findSome?_cons]
    by_cases hjn : j = n
    · subst hjn; rw [hfj]
    · have hfn : f n = none := hnone n (by omega) (by omega)
      rw [hfn]
      exact ih j (by omega) hfj (fun k h1 h2 => hnone k h1 (by omega))

theorem startsWithStr_subset (s p : Str) (h : startsWithStr s p = true) :
    ∀ a ∈ p, a ∈ s := by
  induction p generalizing s with
  | nil => intro a ha; exact absurd ha (List.not_mem_nil a)
  | cons q qs ih =>
    intro a ha
    match s with
    | [] => exact absurd h (by simp [startsWithStr])
    | c :: cs =>
      rw [startsWithStr, Bool.and_eq_true] at h
      rcases List.mem_cons.mp ha with rfl | ha'
      · rw [of_decide_eq_true h.1]; exact List.mem_cons_self a cs
      · exact List.mem_cons_of_mem c (ih cs h.2 a ha')

theorem coreMatch_capture_shape (cs : Str) (k : Nat)
    (hk : k < (cs.takeWhile (fun ch => ch ≠ '/')).length) (hk0 : k ≠ 0)
    (hv : (cs.drop (k + 1)).takeWhile isAsciiAlpha ≠ []) :
    ∃ u v : Str, cs.take k ++ '.' :: ((cs.drop (k + 1)).takeWhile isAsciiAlpha) =
        u ++ '.' :: v ∧ u ≠ [] ∧ '/' ∉ u ∧ v ≠ [] ∧
        ∀ ch ∈ v, isAsciiAlpha ch = true := by
  have hlen : (cs.takeWhile (fun ch => ch ≠ '/')).length ≤ cs.length :=
    (List.takeWhile_prefix _).length_le
  refine ⟨cs.take k, _, rfl, ?_, ?_, hv, fun ch hch => List.mem_takeWhile_imp hch⟩
  · intro he
    have h0 : (cs.take k).length = 0 := by rw [he]; rfl
    rw [List.length_take] at h0
    omega
  · intro hmem
    obtain ⟨t, ht⟩ := List.takeWhile_prefix (l := cs) (fun ch => ch ≠ '/')
    have htake : cs.take k = (cs.takeWhile (fun ch => ch ≠ '/')).take k := by
      conv_lhs => rw [← ht]
      rw [List.take_append_eq_append_take]
      have hz : k - (cs.takeWhile (fun ch => ch ≠ '/')).length = 0 := by omega
      rw [hz, List.take_zero, List.append_nil]
    rw [htake] at hmem
    have := List.mem_takeWhile_imp (List.take_subset k _ hmem)
    simp at this

theorem coreMatch_shape (cs r : Str) (h : coreMatch cs = some r) :
    ∃ u v : Str, r = u ++ '.' :: v ∧ u ≠ [] ∧ '/' ∉ u ∧ v ≠ [] ∧
      ∀ ch ∈ v, isAsciiAlpha ch = true := by
  simp only [coreMatch] at h
  obtain ⟨k, hkmem, hfk⟩ := List.exists_of_findSome?_eq_some h
  have hk : k < (cs.takeWhile (fun ch => ch ≠ '/')).length :=
    List.mem_range.mp (List.mem_reverse.mp hkmem)
  rw [coreMatchStep] at hfk
  split at hfk
  · simp at hfk
  · split at hfk
    · split at hfk
      · simp at hfk
      · split at hfk
        · rename_i hk0 _ hv _
          rw [Option.some_inj] at hfk
          rw [← hfk]
          exact coreMatch_capture_shape cs k hk hk0 hv
        · split at hfk
          · rename_i hk0 _ hv _ _
            rw [Option.some_inj] at hfk
            rw [← hfk]
            exact coreMatch_capture_shape cs k hk hk0 hv
          · simp at hfk
    · simp at hfk

theorem orElse_eq_some_cases {α : Type} (a b : Option α) (r : α)
    (h : (a <|> b) = some r) : a = some r ∨ b = some r := by
  cases a with
  | none => right; simpa using h
  | some v => left; simpa using h

theorem wwwOpt_shape (cs r : Str) (h : wwwOpt cs = some r) :
    ∃ u v : Str, r = u ++ '.' :: v ∧ u ≠ [] ∧ '/' ∉ u ∧ v ≠ [] ∧
      ∀ ch ∈ v, isAsciiAlpha ch = true := by
  rw [wwwOpt] at h
  rcases orElse_eq_some_cases _ _ _ h with h' | h'
  · split at h'
    · exact coreMatch_shape _ _ h'
    · exact absurd h' (by simp)
  · exact coreMatch_shape _ _ h'

theorem matchAt_shape (cs r : Str) (h : matchAt cs = some r) :
    ∃ u v : Str, r = u ++ '.' :: v ∧ u ≠ [] ∧ '/' ∉ u ∧ v ≠ [] ∧
      ∀ ch ∈ v, isAsciiAlpha ch = true := by
  rw [matchAt] at h
  rcases orElse_eq_some_cases _ _ _ h with h' | h'
  · split at h'
    · exact wwwOpt_shape _ _ h'
    · exact absurd h' (by simp)
  rcases orElse_eq_some_cases _ _ _ h' with h'' | h''
  · split at h''
    · exact wwwOpt_shape _ _ h''
    · exact absurd h'' (by simp)
  · exact wwwOpt_shape _ _ h''

theorem findDomainMatch_shape (x r : Str) (h : findDomainMatch x = some r) :
    ∃ u v : Str, r = u ++ '.' :: v ∧ u ≠ [] ∧ '/' ∉ u ∧ v ≠ [] ∧
      ∀ ch ∈ v, isAsciiAlpha ch = true := by
  induction x with
  | nil => exact matchAt_shape _ _ h
  | cons c cs ih =>
    rw [findDomainMatch] at h
    rcases orElse_eq_some_cases _ _ _ h with h' | h'
    · exact matchAt_shape _ _ h'
    · exact ih h'

theorem coreMatch_self (u v : Str) (hu : u ≠ []) (hsu : '/' ∉ u)
    (hv : v ≠ []) (hva : ∀ ch ∈ v, isAsciiAlpha ch = true) :
    coreMatch (u ++ '.' :: v) = some (u ++ '.' :: v) := by
  have hall : ∀ ch ∈ u ++ '.' :: v, (fun ch => decide (ch ≠ '/')) ch = true := by
    intro ch hch
    simp only [decide_eq_true_eq]
    rcases List.mem_append.mp hch with hm | hm
    · exact fun he => hsu (he ▸ hm)
    · rcases List.mem_cons.mp hm with rfl | hm'
      · decide
      · exact (isAsciiAlpha_ne_dot_slash ch (hva ch hm')).2
  have ht : (u ++ '.' :: v).takeWhile (fun ch => ch ≠ '/') = u ++ '.' :: v :=
    takeWhile_eq_self_of_all _ _ hall
  have hlen : (u ++ '.' :: v).length = u.length + (v.length + 1) := by simp
  have hdrop : (u ++ '.' :: v).drop (u.length + 1) = v := by
    have hsplit : u ++ '.' :: v = (u ++ ['.']) ++ v := by simp
    rw [hsplit]
    exact List.drop_left' (by simp)
  have hu0 : u.length ≠ 0 := fun h0 => hu (List.length_eq_zero.mp h0)
  have htw : v.takeWhile isAsciiAlpha = v := takeWhile_eq_self_of_all _ _ hva
  rw [coreMatch, ht, hlen]
  apply findSome_reverse_range _ _ _ u.length (by omega)
  · rw [coreMatchStep, if_neg hu0]
    have hgd : (u ++ '.' :: v).getD u.length ' ' = '.' := by
      rw [List.getD_append_right _ _ _ _ (le_refl u.length)]
      simp
    rw [if_pos hgd, hdrop, htw, if_neg hv, List.drop_length, if_pos rfl,
      List.take_left]
  · intro k h1 h2
    rw [coreMatchStep, if_neg (by omega : ¬k = 0)]
    have hgd : ¬(u ++ '.' :: v).getD k ' ' = '.' := by
      rw [List.getD_append_right _ _ _ _ (by omega : u.length ≤ k)]
      have hpos : k - u.length = (k - u.length - 1) + 1 := by omega
      rw [hpos, List.getD_cons_succ]
      have hlt : k - u.length - 1 < v.length := by omega
      have hmem : v.getD (k - u.length - 1) ' ' ∈ v := by
        rw [List.getD_eq_getElem v ' ' hlt]
        exact List.getElem_mem hlt
      exact (isAsciiAlpha_ne_dot_slash _ (hva _ hmem)).1
    rw [if_neg hgd]

theorem findDomainMatch_lower_self (u v : Str) (hu : u ≠ []) (hsu : '/' ∉ u)
    (hv : v ≠ []) (hva : ∀ ch ∈ v, isAsciiAlpha ch = true)
    (hw : startsWithStr (lowerStr (u ++ '.' :: v)) (strOf "www.") = false) :
    findDomainMatch (lowerStr (u ++ '.' :: v)) = some (lowerStr (u ++ '.' :: v)) := by
  have hdecomp : lowerStr (u ++ '.' :: v) = lowerStr u ++ '.' :: lowerStr v := by
    simp only [lowerStr, List.map_append, List.map_cons]
    rw [show charLower '.' = '.' from by decide]
  have hu' : lowerStr u ≠ [] := by
    simp only [lowerStr, ne_eq, List.map_eq_nil_iff]
    exact hu
  have hv' : lowerStr v ≠ [] := by
    simp only [lowerStr, ne_eq, List.map_eq_nil_iff]
    exact hv
  have hsu' : '/' ∉ lowerStr u := slash_not_mem_lowerStr u hsu
  have hva' : ∀ ch ∈ lowerStr v, isAsciiAlpha ch = true := by
    intro ch hch
    obtain ⟨b, hb, rfl⟩ := List.mem_map.mp hch
    exact charLower_alpha b (hva b hb)
  have hcore : coreMatch (lowerStr (u ++ '.' :: v)) = some (lowerStr (u ++ '.' :: v)) := by
    rw [hdecomp]
    exact coreMatch_self _ _ hu' hsu' hv' hva'
  have hnoslash : '/' ∉ lowerStr (u ++ '.' :: v) := by
    rw [hdecomp]
    intro hmem
    rcases List.mem_append.mp hmem with hm | hm
    · exact hsu' hm
    · rcases List.mem_cons.mp hm with he | hm'
      · exact absurd he (by decide)
      · exact (isAsciiAlpha_ne_dot_slash _ (hva' _ hm')).2 rfl
  have hci : ∀ pat : Str, '/' ∈ lowerStr pat →
      ¬startsWithCI (lowerStr (u ++ '.' :: v)) pat = true := by
    intro pat hpat hh
    rw [startsWithCI, lowerStr_idem] at hh
    exact hnoslash (startsWithStr_subset _ _ hh '/' hpat)
  have hci_https := hci (strOf "https://") (by decide)
  have hci_http := hci (strOf "http://") (by decide)
  have hci_www : ¬startsWithCI (lowerStr (u ++ '.' :: v)) (strOf "www.") = true := by
    rw [startsWithCI, lowerStr_idem,
      show lowerStr (strOf "www.") = strOf "www." from by decide, hw]
    simp
  have hmatch : matchAt (lowerStr (u ++ '.' :: v)) = some (lowerStr (u ++ '.' :: v)) := by
    rw [matchAt, if_neg hci_https, if_neg hci_http, wwwOpt, if_neg hci_www, hcore]
    rfl
  obtain ⟨c0, cs0, hcons⟩ :
      ∃ c0 cs0, lowerStr (u ++ '.' :: v) = c0 :: cs0 := by
    rw [hdecomp]
    cases hlu : lowerStr u with
    | nil => exact absurd hlu hu'
    | cons a as => exact ⟨a, as ++ '.' :: lowerStr v, rfl⟩
  rw [hcons] at hmatch ⊢
  rw [findDomainMatch, hmatch]
  rfl

/-- C6 counterexample: neither normalizer is idempotent.  `cleanWebsiteUrl`
keeps one `www.` layer of `www.www.foo.com` (the regex strips only the first)
and a second application strips the next one; `cleanCompanyName` turns
`Ab Co Co` into `Ab Co` (the `\bco$` rule removes only the final `co`) and a
second application removes the newly trailing `Co` as well. -/
theorem normalizer_idempotence_counterexample :
    cleanWebsiteUrl (cleanWebsiteUrl (strOf "www.www.foo.com")) ≠
        cleanWebsiteUrl (strOf "www.www.foo.com") ∧
      cleanCompanyName (cleanCompanyName (strOf "Ab Co Co")) ≠
        cleanCompanyName (strOf "Ab Co Co") := by
  decide

/-- C6 (amended): `cleanWebsiteUrl` is idempotent on every input on which its
domain regex succeeds with a capture that does not start, once lower-cased,
with `www.`: the result is the lower-cased capture, the regex re-matches that
string at position 0 capturing it whole (it contains no slash, so the
protocol alternatives fail, and the `www.` alternative fails by hypothesis),
and lower-casing is idempotent.  (`cleanCompanyName` is not idempotent, and
`cleanWebsiteUrl` is not on captures keeping a `www.` layer: see the
counterexample.) -/
theorem cleanWebsiteUrl_conditional_idempotent (x c : Str)
    (h : findDomainMatch x = some c)
    (hw : startsWithStr (lowerStr c) (strOf "www.") = false) :
    cleanWebsiteUrl (cleanWebsiteUrl x) = cleanWebsiteUrl x := by
  obtain ⟨u, v, rfl, hu, hsu, hv, hva⟩ := findDomainMatch_shape x c h
  have hx : x ≠ [] := by
    intro he
    subst he
    rw [show findDomainMatch [] = none from by decide] at h
    exact absurd h (by simp)
  have hself := findDomainMatch_lower_self u v hu hsu hv hva hw
  have hcw : cleanWebsiteUrl x = lowerStr (u ++ '.' :: v) := by
    rw [cleanWebsiteUrl, if_neg hx, h]
  rw [hcw]
  have hlne : lowerStr (u ++ '.' :: v) ≠ [] := by
    simp only [lowerStr, ne_eq, List.map_eq_nil_iff]
    simp
  rw [cleanWebsiteUrl, if_neg hlne, hself]
  exact lowerStr_idem _

/-- C6 witness: `example.com/page` matches the domain regex with capture
`example.com`, and `cleanWebsiteUrl` is idempotent on it. -/
theorem cleanWebsiteUrl_conditional_idempotent_witness :
    findDomainMatch (strOf "example.com/page") = some (strOf "example.com") ∧
      startsWithStr (lowerStr (strOf "example.com")) (strOf "www.") = false ∧
      cleanWebsiteUrl (cleanWebsiteUrl (strOf "example.com/page")) =
        cleanWebsiteUrl (strOf "example.com/page") :=
  ⟨by decide, by decide,
    cleanWebsiteUrl_conditional_idempotent (strOf "example.com/page")
      (strOf "example.com") (by decide) (by decide)⟩
